import Mathlib

/-!
Verification of the consistent-hashing core of the repository: the
`SimpleHashRing` data structure (`gateway/simple_hash_ring.py`) and the
simplified gateway service (`gateway/gateway_service_simple.py`),
shallowly embedded in Lean.

The MD5 digest itself comes from Python's `hashlib` standard library and
is not part of the repository, so every definition is parameterised by
the digest function `md5 : List Nat → List Nat` (UTF-8 byte list in,
16-byte digest out).  Everything the repository itself computes on top
of the digest (hex rendering, `int(s, 16)` parsing, virtual-key
construction, the ring operations, the gateway state machine) is
embedded faithfully from the source.

Python dicts are modelled as association lists in insertion order
(assignment updates in place or appends; `del` removes the entry),
Python sets as `Finset`, and `time.time()` values as rationals supplied
as explicit `now` arguments.
-/

set_option maxRecDepth 40000

namespace SDBook

/-! ### Python dict primitives -/

/-- `d[k] = v` on a Python dict: update the entry in place when the key is
present, append a fresh entry otherwise. -/
def dictInsert {κ ν : Type} [DecidableEq κ] (k : κ) (v : ν) :
    List (κ × ν) → List (κ × ν)
  | [] => [(k, v)]
  | (k', v') :: t =>
    if k' = k then (k, v) :: t else (k', v') :: dictInsert k v t

/-- `del d[k]`, total: removes the entry when present, no-op otherwise. -/
def dictErase {κ ν : Type} [DecidableEq κ] (k : κ) (l : List (κ × ν)) :
    List (κ × ν) :=
  l.filter (fun kv => decide (kv.1 ≠ k))

/-- `d.get(k)` on a Python dict. -/
def dictGet {κ ν : Type} [DecidableEq κ] (k : κ) : List (κ × ν) → Option ν
  | [] => none
  | (k', v') :: t => if k' = k then some v' else dictGet k t

/-- In-place mutation of the value stored under `k` (e.g.
`self.nodes[node_id].status = "active"`). -/
def dictModify {κ ν : Type} [DecidableEq κ] (k : κ) (f : ν → ν)
    (l : List (κ × ν)) : List (κ × ν) :=
  l.map (fun kv => if kv.1 = k then (kv.1, f kv.2) else kv)

/-! ### The hash used by `SimpleHashRing._hash`

`int(hashlib.md5(key.encode()).hexdigest(), 16)`: UTF-8 encode the key,
take the MD5 digest, render it as lowercase hex, parse that string as a
base-16 integer. -/

/-- Lowercase hex digit character for `d < 16` (as produced by
`hexdigest()`). -/
def hexDigitChar (d : Nat) : Char :=
  if d < 10 then Char.ofNat (48 + d) else Char.ofNat (87 + d)

/-- The two hex characters of one byte. -/
def byteHex (b : Nat) : List Char :=
  [hexDigitChar (b / 16), hexDigitChar (b % 16)]

/-- `hexdigest()` of a byte string. -/
def bytesToHexStr (bs : List Nat) : String :=
  ⟨bs.flatMap byteHex⟩

/-- Numeric value of one lowercase hex digit character. -/
def hexVal (c : Char) : Nat :=
  if c.toNat ≤ 57 then c.toNat - 48 else c.toNat - 87

/-- `int(s, 16)` on the (always valid, lowercase) hex strings produced by
`hexdigest()`. -/
def intOfHex (s : String) : Nat :=
  s.data.foldl (fun a c => 16 * a + hexVal c) 0

/-- UTF-8 bytes of one character. -/
def utf8Char (c : Char) : List Nat :=
  let n := c.toNat
  if n < 0x80 then [n]
  else if n < 0x800 then [0xC0 + n / 0x40, 0x80 + n % 0x40]
  else if n < 0x10000 then
    [0xE0 + n / 0x1000, 0x80 + (n / 0x40) % 0x40, 0x80 + n % 0x40]
  else
    [0xF0 + n / 0x40000, 0x80 + (n / 0x1000) % 0x40,
      0x80 + (n / 0x40) % 0x40, 0x80 + n % 0x40]

/-- `key.encode()`: the UTF-8 bytes of a Python string. -/
def strBytes (s : String) : List Nat :=
  s.data.flatMap utf8Char

/-- `SimpleHashRing._hash`. -/
def hashFn (md5 : List Nat → List Nat) (key : String) : Nat :=
  intOfHex (bytesToHexStr (md5 (strBytes key)))

/-- Big-endian unsigned-integer value of a byte string (the spec's
reading of the digest). -/
def beNat (bs : List Nat) : Nat :=
  bs.foldl (fun a b => 256 * a + b) 0

/-- The virtual key `f"{node_id}:{i}"` built inside `add_node` and
`remove_node`. -/
def virtualKey (node_id : String) (i : Nat) : String :=
  node_id ++ ":" ++ toString i

/-! ### `SimpleHashRing` -/

/-- State of `SimpleHashRing`: `virtual_nodes`, the `ring` dict
(position → node id), the `sorted_keys` list and the `nodes` set. -/
structure SimpleHashRing where
  virtual_nodes : Nat
  ring : List (Nat × String)
  sorted_keys : List Nat
  nodes : Finset String
deriving DecidableEq

/-- `SimpleHashRing(virtual_nodes)` constructor (`__init__`; the Python
default argument is 150). -/
def mkRing (virtual_nodes : Nat) : SimpleHashRing :=
  { virtual_nodes := virtual_nodes, ring := [], sorted_keys := [], nodes := ∅ }

/-- Python `sorted(...)` on ring positions. -/
def pySorted (l : List Nat) : List Nat :=
  List.insertionSort (· ≤ ·) l

/-- `SimpleHashRing.add_node`. -/
def SimpleHashRing.add_node (md5 : List Nat → List Nat)
    (s : SimpleHashRing) (node_id : String) : SimpleHashRing :=
  if node_id ∈ s.nodes then s
  else
    let ring' := (List.range s.virtual_nodes).foldl
      (fun r i => dictInsert (hashFn md5 (virtualKey node_id i)) node_id r)
      s.ring
    { virtual_nodes := s.virtual_nodes
      ring := ring'
      sorted_keys := pySorted (ring'.map Prod.fst)
      nodes := insert node_id s.nodes }

/-- `SimpleHashRing.remove_node`. -/
def SimpleHashRing.remove_node (md5 : List Nat → List Nat)
    (s : SimpleHashRing) (node_id : String) : SimpleHashRing :=
  if node_id ∉ s.nodes then s
  else
    let ring' := (List.range s.virtual_nodes).foldl
      (fun r i => dictErase (hashFn md5 (virtualKey node_id i)) r)
      s.ring
    { virtual_nodes := s.virtual_nodes
      ring := ring'
      sorted_keys := pySorted (ring'.map Prod.fst)
      nodes := s.nodes.erase node_id }

/-- `SimpleHashRing.get_node`.  The Python code raises on the (unreachable
for well-formed states) paths where `sorted_keys` is empty while `ring`
is not, or where a listed position is missing from the dict; those paths
are mapped to `none` here. -/
def SimpleHashRing.get_node (md5 : List Nat → List Nat)
    (s : SimpleHashRing) (key : String) : Option String :=
  if s.ring.isEmpty then none
  else
    match s.sorted_keys.find? (fun rk => decide (hashFn md5 key ≤ rk)) with
    | some rk => dictGet rk s.ring
    | none =>
      match s.sorted_keys with
      | [] => none
      | rk :: _ => dictGet rk s.ring

/-- The node id stored at position `sorted_keys[j]`
(`self.ring[self.sorted_keys[idx]]`; defaults are unreachable for
well-formed states). -/
def ringValueAt (s : SimpleHashRing) (j : Nat) : String :=
  (dictGet (s.sorted_keys.getD j 0) s.ring).getD ""

/-- The collection loop of `get_nodes`: walk the remaining ring values,
skip already-seen node ids, stop as soon as `count` ids are gathered. -/
def gnGo (count : Int) : List String → List String → Finset String → List String
  | [], res, _ => res
  | v :: vs, res, seen =>
    if v ∈ seen then gnGo count vs res seen
    else
      let res' := res ++ [v]
      if count ≤ (res'.length : Int) then res'
      else gnGo count vs res' (insert v seen)

/-- `SimpleHashRing.get_nodes`. -/
def SimpleHashRing.get_nodes (md5 : List Nat → List Nat)
    (s : SimpleHashRing) (key : String) (count : Int) : List String :=
  if s.ring.isEmpty ∨ count ≤ 0 then []
  else
    gnGo count
      ((List.range s.sorted_keys.length).map (fun i => ringValueAt s
        (((s.sorted_keys.findIdx? (fun rk => decide (hashFn md5 key ≤ rk))).getD 0 + i)
          % s.sorted_keys.length)))
      [] ∅

/-! ### The simplified gateway service -/

/-- `NodeInfo` descriptor. -/
structure NodeInfo where
  node_id : String
  address : String
  port : Int
  last_heartbeat : ℚ
  status : String
deriving DecidableEq

/-- The `data` payload of a `HEARTBEAT` gossip message. -/
structure GossipData where
  node_id : String
  address : String
  port : Int
  timestamp : ℚ
deriving DecidableEq

/-- `GossipMessage`. -/
structure GossipMessage where
  message_id : String
  message_type : String
  sender_id : String
  data : GossipData
  timestamp : ℚ
deriving DecidableEq

/-- Mutable state of `SimpleGatewayService`. -/
structure GatewayState where
  gateway_id : String
  hash_ring : SimpleHashRing
  nodes : List (String × NodeInfo)
  gossip_messages : Finset String
deriving DecidableEq

/-- `SimpleGatewayService.__init__` (the ring uses the default 150
virtual nodes). -/
def initGateway (gateway_id : String) : GatewayState :=
  { gateway_id := gateway_id
    hash_ring := mkRing 150
    nodes := []
    gossip_messages := ∅ }

/-- `SimpleGatewayService._add_node_to_ring`. -/
def addNodeToRing (md5 : List Nat → List Nat) (st : GatewayState)
    (nd : NodeInfo) : GatewayState :=
  let nodes' :=
    if (dictGet nd.node_id st.nodes).isSome then st.nodes
    else dictInsert nd.node_id nd st.nodes
  { st with nodes := nodes', hash_ring := st.hash_ring.add_node md5 nd.node_id }

/-- `SimpleGatewayService._remove_node_from_ring`. -/
def removeNodeFromRing (md5 : List Nat → List Nat) (st : GatewayState)
    (node_id : String) : GatewayState :=
  { st with
    nodes := dictErase node_id st.nodes
    hash_ring := st.hash_ring.remove_node md5 node_id }

/-- JSON body of `POST /heartbeat`; absent fields are `none`. -/
structure HeartbeatBody where
  node_id : Option String
  address : Option String
  port : Option Int
deriving DecidableEq

/-- Python truthiness test `not x` on an optional string field. -/
def falsyStr : Option String → Bool
  | none => true
  | some s => decide (s = "")

/-- Outcome of `POST /heartbeat`. -/
inductive HbResult where
  | badRequest
  | received
deriving DecidableEq

/-- HTTP status code of a heartbeat outcome. -/
def HbResult.code : HbResult → Nat
  | badRequest => 400
  | received => 200

/-- The `receive_heartbeat` route handler.  `now` is the value of
`time.time()` during the request. -/
def receive_heartbeat (md5 : List Nat → List Nat) (st : GatewayState)
    (body : HeartbeatBody) (now : ℚ) : GatewayState × HbResult :=
  let port := body.port.getD 8080
  if falsyStr body.node_id || falsyStr body.address then (st, .badRequest)
  else
    let nid := body.node_id.getD ""
    let addr := body.address.getD ""
    let touch := fun (info : NodeInfo) =>
      { info with last_heartbeat := now, status := "active" }
    let st' :=
      if (dictGet nid st.nodes).isSome then
        { st with nodes := dictModify nid touch st.nodes }
      else
        addNodeToRing md5 st
          { node_id := nid, address := addr, port := port
            last_heartbeat := now, status := "active" }
    (st', .received)

/-- `SimpleGatewayService._process_gossip_message`.  The boolean records
whether the message is re-broadcast to the peer gateways. -/
def process_gossip_message (st : GatewayState) (msg : GossipMessage) :
    GatewayState × Bool :=
  if msg.message_id ∈ st.gossip_messages then (st, false)
  else
    let st1 := { st with gossip_messages := insert msg.message_id st.gossip_messages }
    let touch := fun (info : NodeInfo) =>
      { info with last_heartbeat := msg.data.timestamp, status := "active" }
    let st2 :=
      if msg.message_type = "HEARTBEAT" then
        if (dictGet msg.data.node_id st1.nodes).isSome then
          { st1 with nodes := dictModify msg.data.node_id touch st1.nodes }
        else st1
      else st1
    (st2, decide (msg.sender_id ≠ st.gateway_id))

/-- The `clear_nodes` route handler: wipe the node table, replace the
ring by `SimpleHashRing(virtual_nodes=100)`, report the cleared count. -/
def clear_nodes (st : GatewayState) : GatewayState × Nat :=
  ({ st with nodes := [], hash_ring := mkRing 100 }, st.nodes.length)

/-- Outcome of `GET /nodes/<key>`. -/
inductive KeyLookupResult where
  | ringEmpty
  | nodeMissing
  | found (key : String) (info : NodeInfo)
deriving DecidableEq

/-- HTTP status code of a key lookup outcome (`ringEmpty` is the
`"No nodes in ring"` 404, `nodeMissing` the `"Node not found"` 404). -/
def KeyLookupResult.code : KeyLookupResult → Nat
  | ringEmpty => 404
  | nodeMissing => 404
  | found _ _ => 200

/-- The `if node_info: … else 404` tail of the key-lookup handler. -/
def lookupResult (key : String) (o : Option NodeInfo) : KeyLookupResult :=
  match o with
  | some info => .found key info
  | none => .nodeMissing

/-- The `get_node_for_key` route handler.  When `get_node` returns
`None`, Python's `self.nodes.get(None)` is `None`, also landing in the
`"Node not found"` branch. -/
def get_node_for_key (md5 : List Nat → List Nat) (st : GatewayState)
    (key : String) : KeyLookupResult :=
  if st.hash_ring.nodes = ∅ then .ringEmpty
  else
    match st.hash_ring.get_node md5 key with
    | none => .nodeMissing
    | some node_id => lookupResult key (dictGet node_id st.nodes)

/-- One descriptor pass of `_check_node_health`: possibly flip the status
and report whether the node id joins `dead_nodes`.  `probeOk` is the
outcome of the direct HTTP probe (`False` covers both a non-200 answer
and a transport exception, which the code treats identically). -/
def healthVisit (now : ℚ) (probeOk : String → Bool)
    (kv : String × NodeInfo) : (String × NodeInfo) × Bool :=
  let node := kv.2
  if 30 < now - node.last_heartbeat then
    if node.status ≠ "dead" then ((kv.1, { node with status := "dead" }), true)
    else (kv, false)
  else if probeOk kv.1 then ((kv.1, { node with status := "active" }), false)
  else if node.status ≠ "dead" then ((kv.1, { node with status := "dead" }), true)
  else (kv, false)

/-- `SimpleGatewayService._check_node_health`: update every descriptor's
status, then remove the freshly dead nodes via
`_remove_node_from_ring`. -/
def check_node_health (md5 : List Nat → List Nat) (st : GatewayState)
    (now : ℚ) (probeOk : String → Bool) : GatewayState :=
  let visited := st.nodes.map (healthVisit now probeOk)
  let dead_nodes := (visited.filter (fun x => x.2)).map (fun x => x.1.1)
  let st1 := { st with nodes := visited.map Prod.fst }
  dead_nodes.foldl (fun s nid => removeNodeFromRing md5 s nid) st1

/-! ### Operation traces -/

/-- One mutation of a bare `SimpleHashRing`. -/
inductive ROp where
  | add (node_id : String)
  | remove (node_id : String)
deriving DecidableEq

/-- Apply one ring mutation. -/
def rStep (md5 : List Nat → List Nat) (s : SimpleHashRing) : ROp → SimpleHashRing
  | .add n => s.add_node md5 n
  | .remove n => s.remove_node md5 n

/-- Ring state after a mutation trace starting from the empty ring with
`V` virtual nodes per node. -/
def runRing (md5 : List Nat → List Nat) (V : Nat) (ops : List ROp) :
    SimpleHashRing :=
  ops.foldl (rStep md5) (mkRing V)

/-- The node id an `ROp` touches. -/
def ROp.node : ROp → String
  | .add n => n
  | .remove n => n

/-- Node ids mentioned by a ring trace. -/
def ringTraceNodes (ops : List ROp) : List String :=
  ops.map ROp.node

/-- One gateway operation (request or background tick). -/
inductive GOp where
  | heartbeat (body : HeartbeatBody) (now : ℚ)
  | gossip (msg : GossipMessage)
  | health (now : ℚ) (probeOk : String → Bool)
  | clear

/-- Apply one gateway operation. -/
def gStep (md5 : List Nat → List Nat) (st : GatewayState) : GOp → GatewayState
  | .heartbeat body now => (receive_heartbeat md5 st body now).1
  | .gossip msg => (process_gossip_message st msg).1
  | .health now probeOk => check_node_health md5 st now probeOk
  | .clear => (clear_nodes st).1

/-- Gateway state after an operation trace from a fresh gateway. -/
def runGateway (md5 : List Nat → List Nat) (gid : String) (ops : List GOp) :
    GatewayState :=
  ops.foldl (gStep md5) (initGateway gid)

/-- Node ids a gateway operation can introduce into the ring (only a
direct heartbeat ever adds a node). -/
def GOp.hbNodes : GOp → List String
  | .heartbeat body _ => [body.node_id.getD ""]
  | _ => []

/-- Node ids mentioned by a gateway trace. -/
def gTraceNodes (ops : List GOp) : List String :=
  ops.flatMap GOp.hbNodes

/-! ### Collision freeness -/

/-- The digest, restricted to the virtual keys of the node ids in `ns`
with replica indices below `B`, produces pairwise distinct ring
positions.  (True of MD5 for every data set ever seen; an explicit
counterexample would be an MD5 collision.) -/
def HashesDistinct (md5 : List Nat → List Nat) (B : Nat) (ns : List String) : Prop :=
  ∀ m ∈ ns, ∀ n ∈ ns, ∀ j < B, ∀ i < B,
    hashFn md5 (virtualKey m j) = hashFn md5 (virtualKey n i) → m = n ∧ j = i

instance (md5 : List Nat → List Nat) (B : Nat) (ns : List String) :
    Decidable (HashesDistinct md5 B ns) := by
  unfold HashesDistinct; infer_instance

end SDBook

namespace SDBook

/-! ### Dictionary lemmas -/

theorem dictGet_mem {κ ν : Type} [DecidableEq κ] {k : κ} {v : ν}
    {l : List (κ × ν)} (h : dictGet k l = some v) : (k, v) ∈ l := by
  induction l with
  | nil => simp [dictGet] at h
  | cons kv t ih =>
    obtain ⟨k', v'⟩ := kv
    by_cases hk : k' = k
    · subst hk
      simp [dictGet] at h
      simp [h]
    · simp [dictGet, hk] at h
      exact List.mem_cons_of_mem _ (ih h)

theorem dictGet_isSome_iff {κ ν : Type} [DecidableEq κ] {k : κ}
    {l : List (κ × ν)} : (dictGet k l).isSome ↔ k ∈ l.map Prod.fst := by
  induction l with
  | nil => simp [dictGet]
  | cons kv t ih =>
    obtain ⟨k', v'⟩ := kv
    by_cases hk : k' = k
    · subst hk; simp [dictGet]
    · simp [dictGet, hk, ih, Ne.symm hk]

theorem dictGet_eq_some_of_mem {κ ν : Type} [DecidableEq κ] {k : κ} {v : ν}
    {l : List (κ × ν)} (hnd : (l.map Prod.fst).Nodup) (hm : (k, v) ∈ l) :
    dictGet k l = some v := by
  induction l with
  | nil => simp at hm
  | cons kv t ih =>
    obtain ⟨k', v'⟩ := kv
    simp only [List.map_cons, List.nodup_cons] at hnd
    rcases List.mem_cons.mp hm with h | h
    · simp only [Prod.mk.injEq] at h
      obtain ⟨h1, h2⟩ := h
      subst h1
      subst h2
      simp [dictGet]
    · have hk : k' ≠ k := by
        intro he
        refine hnd.1 ?_
        rw [he]
        exact List.mem_map.mpr ⟨(k, v), h, rfl⟩
      simp [dictGet, hk, ih hnd.2 h]

theorem dictInsert_fresh {κ ν : Type} [DecidableEq κ] {k : κ} (v : ν)
    {l : List (κ × ν)} (h : k ∉ l.map Prod.fst) :
    dictInsert k v l = l ++ [(k, v)] := by
  induction l with
  | nil => rfl
  | cons kv t ih =>
    obtain ⟨k', v'⟩ := kv
    simp only [List.map_cons, List.mem_cons] at h
    push_neg at h
    simp [dictInsert, Ne.symm h.1, ih h.2]

theorem mem_keys_dictInsert {κ ν : Type} [DecidableEq κ] (k : κ) (v : ν)
    (l : List (κ × ν)) : k ∈ (dictInsert k v l).map Prod.fst := by
  induction l with
  | nil => simp [dictInsert]
  | cons kv t ih =>
    obtain ⟨k', v'⟩ := kv
    by_cases hk : k' = k <;> simp [dictInsert, hk, ih]

theorem mem_keys_dictInsert_of_mem {κ ν : Type} [DecidableEq κ] {x : κ}
    (k : κ) (v : ν) {l : List (κ × ν)} (hx : x ∈ l.map Prod.fst) :
    x ∈ (dictInsert k v l).map Prod.fst := by
  induction l with
  | nil => simp at hx
  | cons kv t ih =>
    obtain ⟨k', v'⟩ := kv
    by_cases hk : k' = k
    · subst hk
      simp only [List.map_cons, List.mem_cons] at hx
      rcases hx with hx | hx <;> simp [dictInsert, hx]
    · simp only [List.map_cons, List.mem_cons] at hx
      rcases hx with hx | hx
      · simp [dictInsert, hk, hx]
      · simp [dictInsert, hk]
        right
        have := ih hx
        simpa using this

theorem foldl_dictInsert_fresh {ν : Type} (v : ν) :
    ∀ (ks : List Nat) (l : List (Nat × ν)),
      (∀ k ∈ ks, k ∉ l.map Prod.fst) → ks.Nodup →
      ks.foldl (fun r k => dictInsert k v r) l = l ++ ks.map (fun k => (k, v))
  | [], l, _, _ => by simp
  | k :: ks, l, hf, hnd => by
    have hk : k ∉ l.map Prod.fst := hf k (List.mem_cons_self k ks)
    have hstep : dictInsert k v l = l ++ [(k, v)] := dictInsert_fresh v hk
    simp only [List.foldl_cons, hstep]
    rw [foldl_dictInsert_fresh v ks (l ++ [(k, v)])]
    · simp
    · intro k' hk'
      simp only [List.map_append, List.mem_append, List.map_cons, List.map_nil]
      push_neg
      constructor
      · exact hf k' (List.mem_cons_of_mem _ hk')
      · simp only [List.mem_singleton]
        intro he
        subst he
        exact (List.nodup_cons.mp hnd).1 hk'
    · exact (List.nodup_cons.mp hnd).2

theorem mem_keys_foldl_dictInsert {ν : Type} (v : ν) {k : Nat} :
    ∀ (ks : List Nat) (l : List (Nat × ν)),
      (k ∈ ks ∨ k ∈ l.map Prod.fst) →
      k ∈ (ks.foldl (fun r k' => dictInsert k' v r) l).map Prod.fst
  | [], l, h => by
    rcases h with h | h
    · simp at h
    · simpa using h
  | k' :: ks, l, h => by
    simp only [List.foldl_cons]
    apply mem_keys_foldl_dictInsert v ks
    rcases h with h | h
    · rcases List.mem_cons.mp h with h | h
      · subst h
        exact Or.inr (mem_keys_dictInsert k v l)
      · exact Or.inl h
    · exact Or.inr (mem_keys_dictInsert_of_mem k' v h)

theorem dictErase_nil {κ ν : Type} [DecidableEq κ] (k : κ) :
    dictErase k ([] : List (κ × ν)) = [] := rfl

theorem dictErase_cons {κ ν : Type} [DecidableEq κ] (k a : κ) (b : ν)
    (t : List (κ × ν)) :
    dictErase k ((a, b) :: t)
      = if a = k then dictErase k t else (a, b) :: dictErase k t := by
  by_cases ha : a = k <;> simp [dictErase, List.filter_cons, ha]

theorem dictGet_dictErase {κ ν : Type} [DecidableEq κ] (k k' : κ)
    (l : List (κ × ν)) :
    dictGet k (dictErase k' l) = if k = k' then none else dictGet k l := by
  induction l with
  | nil => simp [dictErase_nil, dictGet]
  | cons kv t ih =>
    obtain ⟨a, b⟩ := kv
    rw [dictErase_cons]
    by_cases ha : a = k'
    · rw [if_pos ha, ih]
      by_cases hkk : k = k'
      · simp [hkk]
      · have hak : ¬ a = k := by
          intro he
          exact hkk (he ▸ ha)
        simp [dictGet, hkk, hak]
    · rw [if_neg ha]
      by_cases hak : a = k
      · subst hak
        simp [dictGet, ha]
      · simp [dictGet, hak, ih]

theorem dictErase_of_not_mem {κ ν : Type} [DecidableEq κ] {k : κ}
    {l : List (κ × ν)} (h : k ∉ l.map Prod.fst) : dictErase k l = l := by
  induction l with
  | nil => rfl
  | cons kv t ih =>
    obtain ⟨a, b⟩ := kv
    simp only [List.map_cons, List.mem_cons] at h
    push_neg at h
    rw [dictErase_cons, if_neg (Ne.symm h.1), ih h.2]

theorem foldl_dictErase {ν : Type} :
    ∀ (ks : List Nat) (l : List (Nat × ν)),
      ks.foldl (fun r k => dictErase k r) l
        = l.filter (fun kv => decide (kv.1 ∉ ks))
  | [], l => by simp
  | k :: ks, l => by
    simp only [List.foldl_cons]
    rw [foldl_dictErase ks (dictErase k l)]
    simp only [dictErase, List.filter_filter]
    apply List.filter_congr
    intro kv _
    by_cases h1 : kv.1 = k <;> by_cases h2 : kv.1 ∈ ks <;>
      simp [h1, h2]

theorem dictModify_cons {κ ν : Type} [DecidableEq κ] (k a : κ) (b : ν)
    (f : ν → ν) (t : List (κ × ν)) :
    dictModify k f ((a, b) :: t)
      = (if a = k then (a, f b) else (a, b)) :: dictModify k f t := by
  by_cases ha : a = k <;> simp [dictModify, ha]

theorem keys_dictModify {κ ν : Type} [DecidableEq κ] (k : κ) (f : ν → ν)
    (l : List (κ × ν)) : (dictModify k f l).map Prod.fst = l.map Prod.fst := by
  induction l with
  | nil => rfl
  | cons kv t ih =>
    obtain ⟨a, b⟩ := kv
    rw [dictModify_cons]
    by_cases ha : a = k <;> simp [ha, ih]

theorem dictGet_dictModify_self {κ ν : Type} [DecidableEq κ] (k : κ)
    (f : ν → ν) (l : List (κ × ν)) :
    dictGet k (dictModify k f l) = (dictGet k l).map f := by
  induction l with
  | nil => rfl
  | cons kv t ih =>
    obtain ⟨a, b⟩ := kv
    rw [dictModify_cons]
    by_cases ha : a = k
    · rw [if_pos ha]
      simp [dictGet, ha]
    · rw [if_neg ha]
      simp [dictGet, ha, ih]

theorem dictGet_dictModify_other {κ ν : Type} [DecidableEq κ] {k m : κ}
    (f : ν → ν) (l : List (κ × ν)) (h : m ≠ k) :
    dictGet m (dictModify k f l) = dictGet m l := by
  induction l with
  | nil => rfl
  | cons kv t ih =>
    obtain ⟨a, b⟩ := kv
    rw [dictModify_cons]
    by_cases ha : a = k
    · rw [if_pos ha]
      have ham : ¬ a = m := by
        intro he
        exact h (he ▸ ha)
      simp [dictGet, ham, ih]
    · rw [if_neg ha]
      by_cases hm : a = m <;> simp [dictGet, hm, ih]

theorem dictGet_append_right {κ ν : Type} [DecidableEq κ] {k : κ}
    {l : List (κ × ν)} (t : List (κ × ν)) (h : k ∉ l.map Prod.fst) :
    dictGet k (l ++ t) = dictGet k t := by
  induction l with
  | nil => rfl
  | cons kv s ih =>
    obtain ⟨a, b⟩ := kv
    simp only [List.map_cons, List.mem_cons] at h
    push_neg at h
    simp [dictGet, Ne.symm h.1, ih h.2]

/-! ### Sorted position lemmas -/

theorem pySorted_sorted (l : List Nat) : (pySorted l).Sorted (· ≤ ·) :=
  List.sorted_insertionSort _ l

theorem pySorted_perm (l : List Nat) : List.Perm (pySorted l) l :=
  List.perm_insertionSort _ l

theorem mem_pySorted {l : List Nat} {x : Nat} : x ∈ pySorted l ↔ x ∈ l :=
  (pySorted_perm l).mem_iff

theorem find?_ge_spec {h : Nat} :
    ∀ {l : List Nat}, l.Sorted (· ≤ ·) →
      ∀ {p : Nat}, l.find? (fun rk => decide (h ≤ rk)) = some p →
      p ∈ l ∧ h ≤ p ∧ ∀ q ∈ l, h ≤ q → p ≤ q := by
  intro l
  induction l with
  | nil => intro _ p hp; simp [List.find?] at hp
  | cons a t ih =>
    intro hs p hp
    rw [List.sorted_cons] at hs
    by_cases ha : h ≤ a
    · have : p = a := by
        simp [List.find?, ha] at hp
        exact hp.symm
      subst this
      refine ⟨List.mem_cons_self _ _, ha, ?_⟩
      intro q hq _
      rcases List.mem_cons.mp hq with rfl | hq
      · exact le_refl _
      · exact hs.1 q hq
    · rw [List.find?_cons_of_neg] at hp
      · obtain ⟨h1, h2, h3⟩ := ih hs.2 hp
        refine ⟨List.mem_cons_of_mem _ h1, h2, ?_⟩
        intro q hq hhq
        rcases List.mem_cons.mp hq with rfl | hq
        · exact absurd hhq ha
        · exact h3 q hq hhq
      · simpa using ha

theorem find?_ge_none {h : Nat} {l : List Nat}
    (hf : l.find? (fun rk => decide (h ≤ rk)) = none) :
    ∀ q ∈ l, q < h := by
  intro q hq
  have := List.find?_eq_none.mp hf q hq
  simpa [Nat.lt_iff_add_one_le, Nat.not_le] using this

theorem sorted_head_min {a : Nat} {t : List Nat}
    (hs : (a :: t).Sorted (· ≤ ·)) : ∀ q ∈ a :: t, a ≤ q := by
  intro q hq
  rcases List.mem_cons.mp hq with rfl | hq
  · exact le_refl _
  · exact (List.sorted_cons.mp hs).1 q hq

theorem findIdx?_shift {α : Type} :
    ∀ (l : List α) (p : α → Bool) (st : Nat),
      l.findIdx? p st = (l.findIdx? p).map (· + st)
  | [], _, _ => rfl
  | a :: t, p, st => by
    rw [List.findIdx?_cons, List.findIdx?_cons]
    by_cases hp : p a
    · simp [hp]
    · simp only [hp, Bool.false_eq_true, if_neg, not_false_eq_true, if_false]
      rw [findIdx?_shift t p (st + 1), findIdx?_shift t p (0 + 1)]
      rcases t.findIdx? p with _ | j
      · simp
      · simp only [Option.map_some']
        congr 1
        omega

theorem findIdx?_some_lt_getD {α : Type} [Inhabited α] :
    ∀ {l : List α} {p : α → Bool} {i : Nat}, l.findIdx? p = some i →
      i < l.length ∧ l.find? p = some (l.getD i default)
  | [], p, i, h => by simp [List.findIdx?] at h
  | a :: t, p, i, h => by
    rw [List.findIdx?_cons] at h
    by_cases hp : p a
    · simp only [hp, if_pos, Option.some.injEq] at h
      subst h
      simp [List.find?, hp]
    · simp only [hp, Bool.false_eq_true, if_neg, not_false_eq_true, if_false] at h
      rw [findIdx?_shift t p (0 + 1)] at h
      rcases Option.map_eq_some'.mp h with ⟨j, hj, hij⟩
      obtain ⟨h1, h2⟩ := findIdx?_some_lt_getD hj
      constructor
      · simp only [List.length_cons]
        omega
      · rw [List.find?_cons_of_neg _ (by simpa using hp)]
        have hi : i = j + 1 := by omega
        subst hi
        simpa using h2

theorem findIdx?_none_find?_none {α : Type} {l : List α} {p : α → Bool}
    (h : l.findIdx? p = none) : l.find? p = none := by
  induction l with
  | nil => rfl
  | cons a t ih =>
    rw [List.findIdx?_cons] at h
    by_cases hp : p a
    · simp [hp] at h
    · simp only [hp, Bool.false_eq_true, if_neg, not_false_eq_true, if_false] at h
      rw [findIdx?_shift t p (0 + 1)] at h
      rw [List.find?_cons_of_neg _ (by simpa using hp)]
      exact ih (by simpa using h)

/-! ### Hex rendering versus big-endian value -/

theorem hexVal_hexDigitChar : ∀ d < 16, hexVal (hexDigitChar d) = d := by
  decide

theorem foldl_hex_eq_foldl_byte :
    ∀ (bs : List Nat) (a : Nat), (∀ b ∈ bs, b < 256) →
      (bs.flatMap byteHex).foldl (fun x c => 16 * x + hexVal c) a
        = bs.foldl (fun x b => 256 * x + b) a
  | [], a, _ => rfl
  | b :: bs, a, h => by
    have hb : b < 256 := h b (List.mem_cons_self _ _)
    have h1 : b / 16 < 16 := by omega
    have h2 : b % 16 < 16 := Nat.mod_lt _ (by omega)
    simp only [List.flatMap_cons, List.foldl_append, byteHex, List.foldl_cons,
      List.foldl_nil]
    rw [hexVal_hexDigitChar _ h1, hexVal_hexDigitChar _ h2]
    rw [foldl_hex_eq_foldl_byte bs _ (fun x hx => h x (List.mem_cons_of_mem _ hx))]
    congr 1
    have := Nat.div_add_mod b 16
    omega

theorem intOfHex_bytesToHexStr (bs : List Nat) (h : ∀ b ∈ bs, b < 256) :
    intOfHex (bytesToHexStr bs) = beNat bs :=
  foldl_hex_eq_foldl_byte bs 0 h

theorem foldl_byte_lt :
    ∀ (bs : List Nat) (a : Nat), (∀ b ∈ bs, b < 256) →
      bs.foldl (fun x b => 256 * x + b) a < 256 ^ bs.length * (a + 1)
  | [], a, _ => by simp
  | b :: bs, a, h => by
    have hb : b < 256 := h b (List.mem_cons_self _ _)
    have ih := foldl_byte_lt bs (256 * a + b)
      (fun x hx => h x (List.mem_cons_of_mem _ hx))
    simp only [List.foldl_cons, List.length_cons]
    calc bs.foldl (fun x b => 256 * x + b) (256 * a + b)
        < 256 ^ bs.length * (256 * a + b + 1) := ih
      _ ≤ 256 ^ bs.length * (256 * (a + 1)) := by
          apply Nat.mul_le_mul_left
          omega
      _ = 256 ^ (bs.length + 1) * (a + 1) := by ring

theorem beNat_lt (bs : List Nat) (h : ∀ b ∈ bs, b < 256) :
    beNat bs < 256 ^ bs.length := by
  have := foldl_byte_lt bs 0 h
  simpa [beNat] using this

/-! ### Ring well-formedness invariant -/

/-- The hash positions of the `virtual_nodes` virtual keys of one node. -/
def vkHashes (md5 : List Nat → List Nat) (V : Nat) (n : String) : List Nat :=
  (List.range V).map (fun i => hashFn md5 (virtualKey n i))

/-- Invariant of every `SimpleHashRing` state reachable from an empty
ring, relative to a bound `B ≥ virtual_nodes` and a universe `N` of node
ids whose virtual-key hashes are collision free. -/
structure RingInv (md5 : List Nat → List Nat) (B : Nat) (N : List String)
    (s : SimpleHashRing) : Prop where
  vpos : 1 ≤ s.virtual_nodes
  vle : s.virtual_nodes ≤ B
  keysNodup : (s.ring.map Prod.fst).Nodup
  sortedEq : s.sorted_keys = pySorted (s.ring.map Prod.fst)
  entryNode : ∀ pv ∈ s.ring, pv.2 ∈ s.nodes
  entryPos : ∀ pv ∈ s.ring, ∃ i < s.virtual_nodes,
    pv.1 = hashFn md5 (virtualKey pv.2 i)
  countV : ∀ n ∈ s.nodes,
    (s.ring.filter (fun pv => decide (pv.2 = n))).length = s.virtual_nodes
  nodesSub : ∀ n ∈ s.nodes, n ∈ N

theorem ringInv_mkRing (md5 : List Nat → List Nat) {B V : Nat}
    (N : List String) (hV : 1 ≤ V) (hB : V ≤ B) :
    RingInv md5 B N (mkRing V) := by
  refine ⟨hV, hB, ?_, ?_, ?_, ?_, ?_, ?_⟩ <;> simp [mkRing, pySorted]

theorem add_node_of_mem (md5 : List Nat → List Nat) {s : SimpleHashRing}
    {n : String} (h : n ∈ s.nodes) : s.add_node md5 n = s := by
  rw [SimpleHashRing.add_node, if_pos h]

theorem remove_node_of_not_mem (md5 : List Nat → List Nat)
    {s : SimpleHashRing} {n : String} (h : n ∉ s.nodes) :
    s.remove_node md5 n = s := by
  rw [SimpleHashRing.remove_node, if_pos h]

theorem add_node_ring_eq (md5 : List Nat → List Nat) (s : SimpleHashRing)
    (n : String) (hn : n ∉ s.nodes) :
    (s.add_node md5 n).ring = (List.range s.virtual_nodes).foldl
      (fun r i => dictInsert (hashFn md5 (virtualKey n i)) n r) s.ring ∧
    (s.add_node md5 n).sorted_keys
      = pySorted ((s.add_node md5 n).ring.map Prod.fst) ∧
    (s.add_node md5 n).nodes = insert n s.nodes ∧
    (s.add_node md5 n).virtual_nodes = s.virtual_nodes := by
  rw [SimpleHashRing.add_node, if_neg hn]
  exact ⟨rfl, rfl, rfl, rfl⟩

theorem remove_node_ring_eq (md5 : List Nat → List Nat) (s : SimpleHashRing)
    (n : String) (hn : n ∈ s.nodes) :
    (s.remove_node md5 n).ring = (List.range s.virtual_nodes).foldl
      (fun r i => dictErase (hashFn md5 (virtualKey n i)) r) s.ring ∧
    (s.remove_node md5 n).sorted_keys
      = pySorted ((s.remove_node md5 n).ring.map Prod.fst) ∧
    (s.remove_node md5 n).nodes = s.nodes.erase n ∧
    (s.remove_node md5 n).virtual_nodes = s.virtual_nodes := by
  rw [SimpleHashRing.remove_node, if_neg (by simpa using hn)]
  exact ⟨rfl, rfl, rfl, rfl⟩

theorem vkHashes_nodup {md5 : List Nat → List Nat} {B : Nat}
    {N : List String} (hD : HashesDistinct md5 B N) {n : String}
    (hn : n ∈ N) {V : Nat} (hV : V ≤ B) : (vkHashes md5 V n).Nodup := by
  apply List.Nodup.map_on
  · intro x hx y hy hxy
    have hxB : x < B := lt_of_lt_of_le (List.mem_range.mp hx) hV
    have hyB : y < B := lt_of_lt_of_le (List.mem_range.mp hy) hV
    exact (hD n hn n hn x hxB y hyB hxy).2
  · exact List.nodup_range _

theorem vkHashes_fresh {md5 : List Nat → List Nat} {B : Nat}
    {N : List String} {s : SimpleHashRing} (hD : HashesDistinct md5 B N)
    (hInv : RingInv md5 B N s) {n : String} (hn : n ∈ N)
    (hmem : n ∉ s.nodes) :
    ∀ k ∈ vkHashes md5 s.virtual_nodes n, k ∉ s.ring.map Prod.fst := by
  intro k hk hkr
  rcases List.mem_map.mp hk with ⟨i, hi, rfl⟩
  rcases List.mem_map.mp hkr with ⟨pv, hpv, hpvk⟩
  rcases hInv.entryPos pv hpv with ⟨j, hj, hpj⟩
  have heq : hashFn md5 (virtualKey pv.2 j) = hashFn md5 (virtualKey n i) := by
    rw [← hpj, hpvk]
  have hm : pv.2 ∈ N := hInv.nodesSub pv.2 (hInv.entryNode pv hpv)
  have := hD pv.2 hm n hn j (lt_of_lt_of_le hj hInv.vle)
    i (lt_of_lt_of_le (List.mem_range.mp hi) hInv.vle) heq
  exact hmem (this.1 ▸ hInv.entryNode pv hpv)

theorem ringInv_add {md5 : List Nat → List Nat} {B : Nat} {N : List String}
    {s : SimpleHashRing} {n : String} (hD : HashesDistinct md5 B N)
    (hInv : RingInv md5 B N s) (hn : n ∈ N) :
    RingInv md5 B N (s.add_node md5 n) := by
  by_cases hmem : n ∈ s.nodes
  · rw [add_node_of_mem md5 hmem]
    exact hInv
  · obtain ⟨hring, hsorted, hnodes, hv⟩ := add_node_ring_eq md5 s n hmem
    have hfold : (s.add_node md5 n).ring
        = s.ring ++ (vkHashes md5 s.virtual_nodes n).map (fun k => (k, n)) := by
      rw [hring, ← List.foldl_map
        (fun i => hashFn md5 (virtualKey n i)) (fun r k => dictInsert k n r)]
      exact foldl_dictInsert_fresh n _ _
        (vkHashes_fresh hD hInv hn hmem)
        (vkHashes_nodup hD hn hInv.vle)
    have hkeys : (s.add_node md5 n).ring.map Prod.fst
        = s.ring.map Prod.fst ++ vkHashes md5 s.virtual_nodes n := by
      rw [hfold, List.map_append, List.map_map]
      congr 1
      rw [show (Prod.fst ∘ fun k : Nat => (k, n)) = id from rfl, List.map_id]
    refine ⟨hv ▸ hInv.vpos, hv ▸ hInv.vle, ?_, hsorted, ?_, ?_, ?_, ?_⟩
    · rw [hkeys]
      refine List.Nodup.append hInv.keysNodup
        (vkHashes_nodup hD hn hInv.vle) ?_
      intro k hk1 hk2
      exact vkHashes_fresh hD hInv hn hmem k hk2 hk1
    · intro pv hpv
      rw [hfold] at hpv
      rw [hnodes]
      rcases List.mem_append.mp hpv with hpv | hpv
      · exact Finset.mem_insert_of_mem (hInv.entryNode pv hpv)
      · rcases List.mem_map.mp hpv with ⟨k, _, rfl⟩
        exact Finset.mem_insert_self _ _
    · intro pv hpv
      rw [hfold] at hpv
      rw [hv]
      rcases List.mem_append.mp hpv with hpv | hpv
      · exact hInv.entryPos pv hpv
      · rcases List.mem_map.mp hpv with ⟨k, hk, rfl⟩
        rcases List.mem_map.mp hk with ⟨i, hi, rfl⟩
        exact ⟨i, List.mem_range.mp hi, rfl⟩
    · intro m hm
      rw [hnodes] at hm
      rw [hfold, hv, List.filter_append, List.length_append]
      rcases Finset.mem_insert.mp hm with rfl | hm
      · have h1 : s.ring.filter (fun pv => decide (pv.2 = m)) = [] := by
          rw [List.filter_eq_nil_iff]
          intro pv hpv
          simp only [decide_eq_true_eq]
          intro he
          exact hmem (he ▸ hInv.entryNode pv hpv)
        have h2 : ((vkHashes md5 s.virtual_nodes m).map (fun k => (k, m))).filter
            (fun pv => decide (pv.2 = m))
            = (vkHashes md5 s.virtual_nodes m).map (fun k => (k, m)) := by
          rw [List.filter_eq_self]
          intro pv hpv
          rcases List.mem_map.mp hpv with ⟨k, _, rfl⟩
          simp
        rw [h1, h2]
        simp [vkHashes]
      · have hmn : m ≠ n := by
          intro he
          exact hmem (he ▸ hm)
        have h2 : ((vkHashes md5 s.virtual_nodes n).map (fun k => (k, n))).filter
            (fun pv => decide (pv.2 = m)) = [] := by
          rw [List.filter_eq_nil_iff]
          intro pv hpv
          rcases List.mem_map.mp hpv with ⟨k, _, rfl⟩
          simpa using Ne.symm hmn
        rw [h2]
        simp [hInv.countV m hm]
    · intro m hm
      rw [hnodes] at hm
      rcases Finset.mem_insert.mp hm with rfl | hm
      · exact hn
      · exact hInv.nodesSub m hm

theorem ringInv_remove {md5 : List Nat → List Nat} {B : Nat}
    {N : List String} {s : SimpleHashRing} {n : String}
    (hD : HashesDistinct md5 B N) (hInv : RingInv md5 B N s) :
    RingInv md5 B N (s.remove_node md5 n) := by
  by_cases hmem : n ∈ s.nodes
  · obtain ⟨hring, hsorted, hnodes, hv⟩ := remove_node_ring_eq md5 s n hmem
    have hnN : n ∈ N := hInv.nodesSub n hmem
    have hfold : (s.remove_node md5 n).ring
        = s.ring.filter (fun kv => decide (kv.1 ∉ vkHashes md5 s.virtual_nodes n)) := by
      rw [hring, ← List.foldl_map
        (fun i => hashFn md5 (virtualKey n i)) (fun r k => dictErase k r)]
      exact foldl_dictErase _ _
    have hsub : ∀ pv, pv ∈ (s.remove_node md5 n).ring →
        pv ∈ s.ring ∧ pv.1 ∉ vkHashes md5 s.virtual_nodes n := by
      intro pv hpv
      rw [hfold] at hpv
      exact ⟨List.mem_of_mem_filter hpv, by simpa using List.of_mem_filter hpv⟩
    have hvalne : ∀ pv, pv ∈ (s.remove_node md5 n).ring → pv.2 ≠ n := by
      intro pv hpv he
      obtain ⟨hpr, hpk⟩ := hsub pv hpv
      rcases hInv.entryPos pv hpr with ⟨i, hi, hpi⟩
      apply hpk
      rw [hpi, he]
      exact List.mem_map.mpr ⟨i, List.mem_range.mpr hi, rfl⟩
    refine ⟨hv ▸ hInv.vpos, hv ▸ hInv.vle, ?_, hsorted, ?_, ?_, ?_, ?_⟩
    · rw [hfold]
      exact hInv.keysNodup.sublist ((List.filter_sublist _).map Prod.fst)
    · intro pv hpv
      rw [hnodes]
      exact Finset.mem_erase_of_ne_of_mem (hvalne pv hpv)
        (hInv.entryNode pv (hsub pv hpv).1)
    · intro pv hpv
      rw [hv]
      exact hInv.entryPos pv (hsub pv hpv).1
    · intro m hm
      rw [hnodes] at hm
      have hmn : m ≠ n := (Finset.mem_erase.mp hm).1
      have hms : m ∈ s.nodes := (Finset.mem_erase.mp hm).2
      rw [hfold, hv, List.filter_filter]
      rw [List.filter_congr ?_]
      · exact hInv.countV m hms
      · intro pv hpv
        by_cases he : pv.2 = m
        · have hk : pv.1 ∉ vkHashes md5 s.virtual_nodes n := by
            intro hkm
            rcases List.mem_map.mp hkm with ⟨i, hi, hki⟩
            rcases hInv.entryPos pv hpv with ⟨j, hj, hpj⟩
            have heq : hashFn md5 (virtualKey pv.2 j)
                = hashFn md5 (virtualKey n i) := by rw [← hpj, hki]
            have := hD pv.2 (hInv.nodesSub pv.2 (hInv.entryNode pv hpv))
              n hnN j (lt_of_lt_of_le hj hInv.vle)
              i (lt_of_lt_of_le (List.mem_range.mp hi) hInv.vle) heq
            exact hmn (he ▸ this.1)
          simp [he, hk]
        · simp [he]
    · intro m hm
      rw [hnodes] at hm
      exact hInv.nodesSub m ((Finset.mem_erase.mp hm).2)
  · rw [remove_node_of_not_mem md5 hmem]
    exact hInv

theorem ringInv_rStep {md5 : List Nat → List Nat} {B : Nat}
    {N : List String} {s : SimpleHashRing} {op : ROp}
    (hD : HashesDistinct md5 B N) (hInv : RingInv md5 B N s)
    (hop : op.node ∈ N) : RingInv md5 B N (rStep md5 s op) := by
  cases op with
  | add n => exact ringInv_add hD hInv hop
  | remove n => exact ringInv_remove hD hInv

theorem ringInv_foldl {md5 : List Nat → List Nat} {B : Nat}
    {N : List String} :
    ∀ (ops : List ROp) (s : SimpleHashRing), HashesDistinct md5 B N →
      RingInv md5 B N s → (∀ x ∈ ringTraceNodes ops, x ∈ N) →
      RingInv md5 B N (ops.foldl (rStep md5) s)
  | [], s, _, hInv, _ => hInv
  | op :: ops, s, hD, hInv, hT => by
    simp only [List.foldl_cons]
    refine ringInv_foldl ops _ hD ?_ ?_
    · exact ringInv_rStep hD hInv (hT op.node (by simp [ringTraceNodes]))
    · intro x hx
      exact hT x (by simp [ringTraceNodes] at hx ⊢; exact Or.inr hx)

theorem ringInv_runRing {md5 : List Nat → List Nat} {B V : Nat}
    {N : List String} {ops : List ROp} (hV : 1 ≤ V) (hVB : V ≤ B)
    (hD : HashesDistinct md5 B N) (hT : ∀ x ∈ ringTraceNodes ops, x ∈ N) :
    RingInv md5 B N (runRing md5 V ops) :=
  ringInv_foldl ops (mkRing V) hD (ringInv_mkRing md5 N hV hVB) hT

theorem virtual_nodes_rStep (md5 : List Nat → List Nat)
    (s : SimpleHashRing) (op : ROp) :
    (rStep md5 s op).virtual_nodes = s.virtual_nodes := by
  cases op with
  | add n =>
    by_cases h : n ∈ s.nodes
    · rw [rStep, add_node_of_mem md5 h]
    · exact (add_node_ring_eq md5 s n h).2.2.2
  | remove n =>
    by_cases h : n ∈ s.nodes
    · exact (remove_node_ring_eq md5 s n h).2.2.2
    · rw [rStep, remove_node_of_not_mem md5 h]

theorem virtual_nodes_runRing (md5 : List Nat → List Nat) (V : Nat)
    (ops : List ROp) : (runRing md5 V ops).virtual_nodes = V := by
  suffices h : ∀ (l : List ROp) (s : SimpleHashRing),
      (l.foldl (rStep md5) s).virtual_nodes = s.virtual_nodes by
    exact h ops (mkRing V)
  intro l
  induction l with
  | nil => intro s; rfl
  | cons op t ih =>
    intro s
    simp only [List.foldl_cons]
    rw [ih, virtual_nodes_rStep]

/-! ### Counting ring entries by node -/

theorem length_eq_sum_counts {ns : Finset String} :
    ∀ (r : List (Nat × String)), (∀ pv ∈ r, pv.2 ∈ ns) →
      r.length = ∑ n ∈ ns, (r.filter (fun pv => decide (pv.2 = n))).length
  | [], _ => by simp
  | pv :: t, h => by
    have hpv : pv.2 ∈ ns := h pv (List.mem_cons_self _ _)
    have ht : ∀ q ∈ t, q.2 ∈ ns := fun q hq => h q (List.mem_cons_of_mem _ hq)
    have hstep : ∀ n ∈ ns,
        ((pv :: t).filter (fun q => decide (q.2 = n))).length
          = (if n = pv.2 then 1 else 0)
            + (t.filter (fun q => decide (q.2 = n))).length := by
      intro n _
      rw [List.filter_cons]
      by_cases he : pv.2 = n
      · simp [he]
        omega
      · have hne : ¬ n = pv.2 := fun hh => he hh.symm
        simp [he, hne]
    rw [List.length_cons, length_eq_sum_counts t ht,
      Finset.sum_congr rfl hstep, Finset.sum_add_distrib]
    rw [Finset.sum_ite_eq' ns pv.2 (fun _ => 1)]
    simp [hpv]
    omega

theorem ringInv_length {md5 : List Nat → List Nat} {B : Nat}
    {N : List String} {s : SimpleHashRing} (hInv : RingInv md5 B N s) :
    s.ring.length = s.virtual_nodes * s.nodes.card := by
  rw [length_eq_sum_counts s.ring hInv.entryNode,
    Finset.sum_congr rfl hInv.countV]
  rw [Finset.sum_const, smul_eq_mul, mul_comm]

theorem ringInv_ring_nil_iff {md5 : List Nat → List Nat} {B : Nat}
    {N : List String} {s : SimpleHashRing} (hInv : RingInv md5 B N s) :
    s.ring = [] ↔ s.nodes = ∅ := by
  constructor
  · intro h
    by_contra hne
    rcases Finset.nonempty_iff_ne_empty.mpr hne with ⟨n, hn⟩
    have := hInv.countV n hn
    rw [h] at this
    simp at this
    have h1 := hInv.vpos
    omega
  · intro h
    have : s.ring.length = 0 := by
      rw [ringInv_length hInv, h]
      simp
    exact List.length_eq_zero.mp this

/-! ### Characterisation of `get_node` -/

/-- `p` is the owner position for hash value `h` among the positions
`ks`: the least position at or after `h`, or the overall least position
when every position is before `h` (the wrap-around case). -/
def OwnerPos (ks : List Nat) (h p : Nat) : Prop :=
  (h ≤ p ∧ p ∈ ks ∧ ∀ q ∈ ks, h ≤ q → p ≤ q) ∨
  ((∀ q ∈ ks, q < h) ∧ p ∈ ks ∧ ∀ q ∈ ks, p ≤ q)

theorem optionEqCases {α : Type} (o : Option α) : o = none ∨ ∃ a, o = some a := by
  cases o with
  | none => exact Or.inl rfl
  | some a => exact Or.inr ⟨a, rfl⟩

theorem listEqCases {α : Type} (l : List α) : l = [] ∨ ∃ a t, l = a :: t := by
  cases l with
  | nil => exact Or.inl rfl
  | cons a t => exact Or.inr ⟨a, t, rfl⟩

theorem get_node_eq_none_iff {md5 : List Nat → List Nat} {B : Nat}
    {N : List String} {s : SimpleHashRing} (hInv : RingInv md5 B N s)
    (key : String) : s.get_node md5 key = none ↔ s.nodes = ∅ := by
  rw [← ringInv_ring_nil_iff hInv]
  constructor
  · intro h
    by_contra hne
    have hkeys : s.ring.map Prod.fst ≠ [] := by
      intro hk
      exact hne (List.map_eq_nil_iff.mp hk)
    have hsk : s.sorted_keys ≠ [] := by
      rw [hInv.sortedEq]
      intro hk
      apply hkeys
      have hlen := (pySorted_perm (s.ring.map Prod.fst)).length_eq
      rw [hk] at hlen
      exact List.length_eq_zero.mp hlen.symm
    rw [SimpleHashRing.get_node, if_neg (by simpa using hne)] at h
    rcases optionEqCases
        (s.sorted_keys.find? (fun rk => decide (hashFn md5 key ≤ rk)))
      with hfind | ⟨rk, hfind⟩
    · rw [hfind] at h
      obtain ⟨rk, t, hsk'⟩ := List.exists_cons_of_ne_nil hsk
      have h2 : (match s.sorted_keys with
          | [] => none
          | rk :: _ => dictGet rk s.ring) = (none : Option String) := h
      rw [hsk'] at h2
      have h3 : dictGet rk s.ring = none := h2
      have hrk : rk ∈ s.ring.map Prod.fst := by
        rw [← mem_pySorted, ← hInv.sortedEq, hsk']
        exact List.mem_cons_self _ _
      have hsome : (dictGet rk s.ring).isSome := dictGet_isSome_iff.mpr hrk
      rw [h3] at hsome
      simp at hsome
    · rw [hfind] at h
      have h3 : dictGet rk s.ring = none := h
      have hrk : rk ∈ s.ring.map Prod.fst := by
        rw [← mem_pySorted, ← hInv.sortedEq]
        exact List.mem_of_find?_eq_some hfind
      have hsome : (dictGet rk s.ring).isSome := dictGet_isSome_iff.mpr hrk
      rw [h3] at hsome
      simp at hsome
  · intro h
    rw [SimpleHashRing.get_node, if_pos (by simp [h])]

theorem get_node_owner {md5 : List Nat → List Nat} {B : Nat}
    {N : List String} {s : SimpleHashRing} (hInv : RingInv md5 B N s)
    {key : String} {v : String} (h : s.get_node md5 key = some v) :
    ∃ p, (p, v) ∈ s.ring ∧ OwnerPos (s.ring.map Prod.fst) (hashFn md5 key) p := by
  have hsorted : s.sorted_keys.Sorted (· ≤ ·) := by
    rw [hInv.sortedEq]
    exact pySorted_sorted _
  have hne : ¬ s.ring.isEmpty := by
    intro he
    rw [SimpleHashRing.get_node, if_pos he] at h
    exact Option.noConfusion h
  rw [SimpleHashRing.get_node, if_neg hne] at h
  have hmemkeys : ∀ q, q ∈ s.sorted_keys ↔ q ∈ s.ring.map Prod.fst := by
    intro q
    rw [hInv.sortedEq, mem_pySorted]
  rcases optionEqCases
      (s.sorted_keys.find? (fun rk => decide (hashFn md5 key ≤ rk)))
    with hfind | ⟨rk, hfind⟩
  · rw [hfind] at h
    have h2 : (match s.sorted_keys with
        | [] => none
        | rk :: _ => dictGet rk s.ring) = some v := h
    rcases listEqCases s.sorted_keys with hskc | ⟨rk, t, hskc⟩
    · rw [hskc] at h2
      exact Option.noConfusion h2
    · rw [hskc] at h2
      have h3 : dictGet rk s.ring = some v := h2
      refine ⟨rk, dictGet_mem h3, Or.inr ⟨?_, ?_, ?_⟩⟩
      · intro q hq
        exact find?_ge_none hfind q ((hmemkeys q).mpr hq)
      · refine (hmemkeys rk).mp ?_
        rw [hskc]
        exact List.mem_cons_self _ _
      · intro q hq
        have hq' : q ∈ rk :: t := by
          rw [← hskc]
          exact (hmemkeys q).mpr hq
        refine sorted_head_min ?_ q hq'
        rw [← hskc]
        exact hsorted
  · rw [hfind] at h
    obtain ⟨hrkmem, hrkge, hrkmin⟩ := find?_ge_spec hsorted hfind
    refine ⟨rk, dictGet_mem h, Or.inl ⟨hrkge, (hmemkeys rk).mp hrkmem, ?_⟩⟩
    intro q hq hhq
    exact hrkmin q ((hmemkeys q).mpr hq) hhq

/-! ### The `get_nodes` collection loop -/

theorem gnGo_mem_of_mem_res {count : Int} :
    ∀ (vs res : List String) (seen : Finset String),
      ∀ x ∈ res, x ∈ gnGo count vs res seen
  | [], res, seen, x, hx => hx
  | v :: vs, res, seen, x, hx => by
    rw [gnGo]
    by_cases hseen : v ∈ seen
    · rw [if_pos hseen]
      exact gnGo_mem_of_mem_res vs res seen x hx
    · rw [if_neg hseen]
      by_cases hcnt : count ≤ ((res ++ [v]).length : Int)
      · simp only [hcnt, if_pos]
        exact List.mem_append_left _ hx
      · simp only [hcnt, if_neg, not_false_eq_true, if_false]
        exact gnGo_mem_of_mem_res vs _ _ x (List.mem_append_left _ hx)

theorem gnGo_mem_sub {count : Int} :
    ∀ (vs res : List String) (seen : Finset String),
      ∀ x ∈ gnGo count vs res seen, x ∈ res ∨ x ∈ vs
  | [], res, seen, x, hx => Or.inl hx
  | v :: vs, res, seen, x, hx => by
    rw [gnGo] at hx
    by_cases hseen : v ∈ seen
    · rw [if_pos hseen] at hx
      rcases gnGo_mem_sub vs res seen x hx with h | h
      · exact Or.inl h
      · exact Or.inr (List.mem_cons_of_mem _ h)
    · rw [if_neg hseen] at hx
      by_cases hcnt : count ≤ ((res ++ [v]).length : Int)
      · simp only [hcnt, if_pos] at hx
        rcases List.mem_append.mp hx with h | h
        · exact Or.inl h
        · exact Or.inr (by simpa using Or.inl (List.mem_singleton.mp h))
      · simp only [hcnt, if_neg, not_false_eq_true, if_false] at hx
        rcases gnGo_mem_sub vs _ _ x hx with h | h
        · rcases List.mem_append.mp h with h | h
          · exact Or.inl h
          · exact Or.inr (by simpa using Or.inl (List.mem_singleton.mp h))
        · exact Or.inr (List.mem_cons_of_mem _ h)

theorem gnGo_nodup {count : Int} :
    ∀ (vs res : List String) (seen : Finset String), res.Nodup →
      (∀ x ∈ res, x ∈ seen) → (gnGo count vs res seen).Nodup
  | [], res, seen, hnd, _ => hnd
  | v :: vs, res, seen, hnd, hsub => by
    rw [gnGo]
    by_cases hseen : v ∈ seen
    · rw [if_pos hseen]
      exact gnGo_nodup vs res seen hnd hsub
    · rw [if_neg hseen]
      have hvres : v ∉ res := fun hv => hseen (hsub v hv)
      have hnd' : (res ++ [v]).Nodup := by
        rw [List.nodup_append]
        exact ⟨hnd, List.nodup_singleton _,
          fun x hx hv => hvres ((List.mem_singleton.mp hv) ▸ hx)⟩
      by_cases hcnt : count ≤ ((res ++ [v]).length : Int)
      · simp only [hcnt, if_pos]
        exact hnd'
      · simp only [hcnt, if_neg, not_false_eq_true, if_false]
        refine gnGo_nodup vs _ _ hnd' ?_
        intro x hx
        rcases List.mem_append.mp hx with h | h
        · exact Finset.mem_insert_of_mem (hsub x h)
        · rw [List.mem_singleton.mp h]
          exact Finset.mem_insert_self _ _

theorem gnGo_length_le {count : Int} :
    ∀ (vs res : List String) (seen : Finset String),
      (res.length : Int) < count →
      ((gnGo count vs res seen).length : Int) ≤ count
  | [], res, seen, h => le_of_lt h
  | v :: vs, res, seen, h => by
    rw [gnGo]
    by_cases hseen : v ∈ seen
    · rw [if_pos hseen]
      exact gnGo_length_le vs res seen h
    · rw [if_neg hseen]
      have hlen : ((res ++ [v]).length : Int) = (res.length : Int) + 1 := by
        simp
      by_cases hcnt : count ≤ ((res ++ [v]).length : Int)
      · simp only [hcnt, if_pos]
        omega
      · simp only [hcnt, if_neg, not_false_eq_true, if_false]
        refine gnGo_length_le vs _ _ ?_
        omega

theorem gnGo_exhaust {count : Int} :
    ∀ (vs res : List String) (seen : Finset String),
      (∀ x ∈ seen, x ∈ res) →
      ((gnGo count vs res seen).length : Int) < count →
      ∀ v ∈ vs, v ∈ gnGo count vs res seen
  | [], _, _, _, _, v, hv => by simp at hv
  | w :: vs, res, seen, hsub, hlt, v, hv => by
    rw [gnGo] at hlt ⊢
    by_cases hseen : w ∈ seen
    · rw [if_pos hseen] at hlt ⊢
      rcases List.mem_cons.mp hv with rfl | hv
      · exact gnGo_mem_of_mem_res vs res seen v (hsub v hseen)
      · exact gnGo_exhaust vs res seen hsub hlt v hv
    · rw [if_neg hseen] at hlt ⊢
      by_cases hcnt : count ≤ ((res ++ [w]).length : Int)
      · simp only [hcnt, if_pos] at hlt ⊢
        omega
      · simp only [hcnt, if_neg, not_false_eq_true, if_false] at hlt ⊢
        have hsub' : ∀ x ∈ insert w seen, x ∈ res ++ [w] := by
          intro x hx
          rcases Finset.mem_insert.mp hx with rfl | hx
          · exact List.mem_append_right _ (List.mem_singleton.mpr rfl)
          · exact List.mem_append_left _ (hsub x hx)
        rcases List.mem_cons.mp hv with rfl | hv
        · exact gnGo_mem_of_mem_res vs _ _ v
            (List.mem_append_right _ (List.mem_singleton.mpr rfl))
        · exact gnGo_exhaust vs _ _ hsub' hlt v hv

theorem gnGo_head_of_ne {count : Int} :
    ∀ (vs res : List String) (seen : Finset String), res ≠ [] →
      (gnGo count vs res seen).head? = res.head?
  | [], res, seen, _ => rfl
  | v :: vs, res, seen, hne => by
    rw [gnGo]
    by_cases hseen : v ∈ seen
    · rw [if_pos hseen]
      exact gnGo_head_of_ne vs res seen hne
    · rw [if_neg hseen]
      have happ : (res ++ [v]).head? = res.head? := by
        rcases listEqCases res with rfl | ⟨a, t, rfl⟩
        · exact absurd rfl hne
        · simp
      by_cases hcnt : count ≤ ((res ++ [v]).length : Int)
      · simp only [hcnt, if_pos]
        exact happ
      · simp only [hcnt, if_neg, not_false_eq_true, if_false]
        rw [gnGo_head_of_ne vs _ _ (by simp), happ]

theorem gnGo_head_start {count : Int}
    (v : String) (vs : List String) :
    (gnGo count (v :: vs) [] ∅).head? = some v := by
  rw [gnGo, if_neg (Finset.not_mem_empty v)]
  by_cases hcnt : count ≤ (([] ++ [v]).length : Int)
  · simp only [hcnt, if_pos]
    rfl
  · simp only [hcnt, if_neg, not_false_eq_true, if_false]
    rw [gnGo_head_of_ne _ _ _ (by simp)]
    rfl

/-! ### Rotation over the sorted positions -/

theorem mod_rotation_surj {L : Nat} (hL : 0 < L) (start : Nat) :
    ∀ j < L, ∃ i < L, (start + i) % L = j := by
  intro j hj
  refine ⟨(L - start % L + j) % L, Nat.mod_lt _ hL, ?_⟩
  rw [Nat.add_mod, Nat.mod_mod_of_dvd _ (dvd_refl L), ← Nat.add_mod]
  have h1 : start % L < L := Nat.mod_lt _ hL
  have h2 : start % L ≤ start := Nat.mod_le _ _
  have hsplit : start + (L - start % L + j) = L * (start / L) + (L + j) := by
    have h3 := Nat.div_add_mod start L
    omega
  rw [hsplit, Nat.mul_add_mod, Nat.add_mod_left, Nat.mod_eq_of_lt hj]

theorem getD_mem_of_lt {l : List Nat} {j : Nat} (h : j < l.length) :
    l.getD j 0 ∈ l := by
  rw [List.getD_eq_getElem l 0 h]
  exact List.getElem_mem h

theorem ringValueAt_entry {md5 : List Nat → List Nat} {B : Nat}
    {N : List String} {s : SimpleHashRing} (hInv : RingInv md5 B N s)
    {j : Nat} (hj : j < s.sorted_keys.length) :
    (s.sorted_keys.getD j 0, ringValueAt s j) ∈ s.ring := by
  have hkey : s.sorted_keys.getD j 0 ∈ s.ring.map Prod.fst := by
    rw [← mem_pySorted, ← hInv.sortedEq]
    exact getD_mem_of_lt hj
  have hsome : (dictGet (s.sorted_keys.getD j 0) s.ring).isSome :=
    dictGet_isSome_iff.mpr hkey
  rcases optionEqCases (dictGet (s.sorted_keys.getD j 0) s.ring)
    with hn | ⟨w, hw⟩
  · rw [hn] at hsome
    simp at hsome
  · have : ringValueAt s j = w := by
      rw [ringValueAt, hw]
      rfl
    rw [this]
    exact dictGet_mem hw

theorem entry_ringValueAt {md5 : List Nat → List Nat} {B : Nat}
    {N : List String} {s : SimpleHashRing} (hInv : RingInv md5 B N s)
    {pv : Nat × String} (hpv : pv ∈ s.ring) :
    ∃ j < s.sorted_keys.length, ringValueAt s j = pv.2 := by
  have hkey : pv.1 ∈ s.sorted_keys := by
    rw [hInv.sortedEq, mem_pySorted]
    exact List.mem_map.mpr ⟨pv, hpv, rfl⟩
  rcases List.mem_iff_get.mp hkey with ⟨⟨j, hj⟩, hget⟩
  refine ⟨j, hj, ?_⟩
  have hgd : s.sorted_keys.getD j 0 = pv.1 := by
    rw [List.getD_eq_getElem _ 0 hj, ← hget]
    rfl
  have hdg : dictGet pv.1 s.ring = some pv.2 :=
    dictGet_eq_some_of_mem hInv.keysNodup hpv
  rw [ringValueAt, hgd, hdg]
  rfl

theorem start_idx_lt {md5 : List Nat → List Nat} (s : SimpleHashRing)
    (key : String) (hL : 0 < s.sorted_keys.length) :
    (s.sorted_keys.findIdx? (fun rk => decide (hashFn md5 key ≤ rk))).getD 0
      < s.sorted_keys.length := by
  rcases optionEqCases
      (s.sorted_keys.findIdx? (fun rk => decide (hashFn md5 key ≤ rk)))
    with hf | ⟨i, hf⟩
  · rw [hf]
    exact hL
  · rw [hf]
    exact (findIdx?_some_lt_getD hf).1

theorem get_node_eq_ringValueAt {md5 : List Nat → List Nat} {B : Nat}
    {N : List String} {s : SimpleHashRing} (hInv : RingInv md5 B N s)
    (key : String) (hne : ¬ s.ring.isEmpty) :
    s.get_node md5 key = some (ringValueAt s
      ((s.sorted_keys.findIdx? (fun rk => decide (hashFn md5 key ≤ rk))).getD 0)) := by
  have hL : 0 < s.sorted_keys.length := by
    rw [hInv.sortedEq, (pySorted_perm _).length_eq, List.length_map]
    cases hr : s.ring with
    | nil => rw [hr] at hne; simp at hne
    | cons a t => simp
  rw [SimpleHashRing.get_node, if_neg hne]
  rcases optionEqCases
      (s.sorted_keys.findIdx? (fun rk => decide (hashFn md5 key ≤ rk)))
    with hf | ⟨i, hf⟩
  · have hfind : s.sorted_keys.find? (fun rk => decide (hashFn md5 key ≤ rk)) = none :=
      findIdx?_none_find?_none hf
    rw [hfind, hf]
    rcases listEqCases s.sorted_keys with hnil | ⟨rk, t, hcons⟩
    · rw [hnil] at hL
      simp at hL
    · rw [hcons]
      have h0 : (s.sorted_keys.getD 0 0) = rk := by
        rw [hcons]
        rfl
      show dictGet rk s.ring = some ((dictGet (s.sorted_keys.getD 0 0) s.ring).getD "")
      rw [h0]
      have hmem : (rk, ringValueAt s 0) ∈ s.ring := h0 ▸ ringValueAt_entry hInv hL
      have hdg : dictGet rk s.ring = some (ringValueAt s 0) :=
        dictGet_eq_some_of_mem hInv.keysNodup hmem
      rw [hdg]
      rfl
  · obtain ⟨hi, hfind⟩ := findIdx?_some_lt_getD hf
    rw [hfind, hf]
    have hmem : (s.sorted_keys.getD i 0, ringValueAt s i) ∈ s.ring :=
      ringValueAt_entry hInv hi
    have hdg : dictGet (s.sorted_keys.getD i 0) s.ring = some (ringValueAt s i) :=
      dictGet_eq_some_of_mem hInv.keysNodup hmem
    exact hdg

theorem sorted_len_pos {md5 : List Nat → List Nat} {B : Nat}
    {N : List String} {s : SimpleHashRing} (hInv : RingInv md5 B N s)
    (hne : s.ring ≠ []) : 0 < s.sorted_keys.length := by
  rw [hInv.sortedEq, (pySorted_perm _).length_eq, List.length_map]
  cases hr : s.ring with
  | nil => exact absurd hr hne
  | cons a t => simp

theorem exists_entry_of_node {md5 : List Nat → List Nat} {B : Nat}
    {N : List String} {s : SimpleHashRing} (hInv : RingInv md5 B N s)
    {n : String} (hn : n ∈ s.nodes) : ∃ pv ∈ s.ring, pv.2 = n := by
  have hcount := hInv.countV n hn
  have hpos := hInv.vpos
  rcases listEqCases (s.ring.filter (fun pv => decide (pv.2 = n)))
    with hnil | ⟨pv, t, hcons⟩
  · rw [hnil] at hcount
    simp at hcount
    omega
  · have hmem : pv ∈ s.ring.filter (fun pv => decide (pv.2 = n)) := by
      rw [hcons]
      exact List.mem_cons_self _ _
    exact ⟨pv, List.mem_of_mem_filter hmem,
      by simpa using List.of_mem_filter hmem⟩

theorem get_nodes_unfold (md5 : List Nat → List Nat) (s : SimpleHashRing)
    (key : String) (count : Int) (hne : s.ring ≠ []) (hc : 1 ≤ count) :
    s.get_nodes md5 key count = gnGo count
      ((List.range s.sorted_keys.length).map (fun i => ringValueAt s
        (((s.sorted_keys.findIdx? (fun rk => decide (hashFn md5 key ≤ rk))).getD 0 + i)
          % s.sorted_keys.length)))
      [] ∅ := by
  rw [SimpleHashRing.get_nodes, if_neg]
  intro hcond
  rcases hcond with hcond | hcond
  · rw [List.isEmpty_iff] at hcond
    exact hne hcond
  · omega

theorem get_nodes_spec {md5 : List Nat → List Nat} {B : Nat}
    {N : List String} {s : SimpleHashRing} (hInv : RingInv md5 B N s)
    (key : String) {count : Int} (hc : 1 ≤ count) (hne : s.nodes ≠ ∅) :
    (s.get_nodes md5 key count).head? = s.get_node md5 key ∧
    (s.get_nodes md5 key count).Nodup ∧
    ((s.get_nodes md5 key count).length : Int) ≤ count ∧
    (((s.get_nodes md5 key count).length : Int) < count →
      (s.get_nodes md5 key count).length = s.nodes.card) := by
  have hring : s.ring ≠ [] := fun h => hne ((ringInv_ring_nil_iff hInv).mp h)
  have hL : 0 < s.sorted_keys.length := sorted_len_pos hInv hring
  have hstartlt := @start_idx_lt md5 s key hL
  rw [get_nodes_unfold md5 s key count hring hc]
  have hvals_ring : ∀ x ∈ (List.range s.sorted_keys.length).map (fun i => ringValueAt s
      (((s.sorted_keys.findIdx? (fun rk => decide (hashFn md5 key ≤ rk))).getD 0 + i)
        % s.sorted_keys.length)), ∃ pv ∈ s.ring, pv.2 = x := by
    intro x hx
    rcases List.mem_map.mp hx with ⟨i, _, rfl⟩
    have hj : (((s.sorted_keys.findIdx? (fun rk => decide (hashFn md5 key ≤ rk))).getD 0 + i)
        % s.sorted_keys.length) < s.sorted_keys.length := Nat.mod_lt _ hL
    exact ⟨_, ringValueAt_entry hInv hj, rfl⟩
  have hvals_all : ∀ pv ∈ s.ring, pv.2 ∈ (List.range s.sorted_keys.length).map
      (fun i => ringValueAt s
        (((s.sorted_keys.findIdx? (fun rk => decide (hashFn md5 key ≤ rk))).getD 0 + i)
          % s.sorted_keys.length)) := by
    intro pv hpv
    rcases entry_ringValueAt hInv hpv with ⟨j, hj, hval⟩
    rcases mod_rotation_surj hL
        ((s.sorted_keys.findIdx? (fun rk => decide (hashFn md5 key ≤ rk))).getD 0) j hj
      with ⟨i, hi, hmod⟩
    refine List.mem_map.mpr ⟨i, List.mem_range.mpr hi, ?_⟩
    rw [hmod, hval]
  refine ⟨?_, ?_, ?_, ?_⟩
  · obtain ⟨m, hm⟩ : ∃ m, s.sorted_keys.length = m + 1 := ⟨s.sorted_keys.length - 1, by omega⟩
    rw [hm, List.range_succ_eq_map, List.map_cons, gnGo_head_start]
    have hmod0 : (((s.sorted_keys.findIdx? (fun rk => decide (hashFn md5 key ≤ rk))).getD 0 + 0)
        % s.sorted_keys.length)
        = (s.sorted_keys.findIdx? (fun rk => decide (hashFn md5 key ≤ rk))).getD 0 := by
      rw [Nat.add_zero, Nat.mod_eq_of_lt hstartlt]
    rw [hm] at hmod0
    rw [hmod0]
    rw [get_node_eq_ringValueAt hInv key (by simp [List.isEmpty_iff, hring])]
  · exact gnGo_nodup _ [] ∅ (List.nodup_nil) (by simp)
  · exact gnGo_length_le _ [] ∅ (by simpa using hc)
  · intro hlt
    have hexh := gnGo_exhaust _ [] ∅ (by simp) hlt
    have hsub1 : ∀ x ∈ gnGo count ((List.range s.sorted_keys.length).map (fun i => ringValueAt s
        (((s.sorted_keys.findIdx? (fun rk => decide (hashFn md5 key ≤ rk))).getD 0 + i)
          % s.sorted_keys.length))) [] ∅, x ∈ s.nodes := by
      intro x hx
      rcases gnGo_mem_sub _ _ _ x hx with hr | hr
      · simp at hr
      · rcases hvals_ring x hr with ⟨pv, hpv, rfl⟩
        exact hInv.entryNode pv hpv
    have hsub2 : ∀ n ∈ s.nodes, n ∈ gnGo count ((List.range s.sorted_keys.length).map
        (fun i => ringValueAt s
          (((s.sorted_keys.findIdx? (fun rk => decide (hashFn md5 key ≤ rk))).getD 0 + i)
            % s.sorted_keys.length))) [] ∅ := by
      intro n hn
      rcases exists_entry_of_node hInv hn with ⟨pv, hpv, hval⟩
      exact hexh _ (hval ▸ hvals_all pv hpv)
    have hnd := @gnGo_nodup count ((List.range s.sorted_keys.length).map
      (fun i => ringValueAt s
        (((s.sorted_keys.findIdx? (fun rk => decide (hashFn md5 key ≤ rk))).getD 0 + i)
          % s.sorted_keys.length))) [] ∅ (List.nodup_nil) (by simp)
    have hfs : (gnGo count ((List.range s.sorted_keys.length).map (fun i => ringValueAt s
        (((s.sorted_keys.findIdx? (fun rk => decide (hashFn md5 key ≤ rk))).getD 0 + i)
          % s.sorted_keys.length))) [] ∅).toFinset = s.nodes := by
      apply Finset.ext
      intro x
      simp only [List.mem_toFinset]
      exact ⟨hsub1 x, hsub2 x⟩
    rw [← List.toFinset_card_of_nodup hnd, hfs]

/-! ### Membership algebra of `add_node` / `remove_node` -/

theorem ringExt {a b : SimpleHashRing}
    (h1 : a.virtual_nodes = b.virtual_nodes) (h2 : a.ring = b.ring)
    (h3 : a.sorted_keys = b.sorted_keys) (h4 : a.nodes = b.nodes) : a = b := by
  cases a
  cases b
  simp_all

theorem add_node_add_node (md5 : List Nat → List Nat) (s : SimpleHashRing)
    (n : String) : (s.add_node md5 n).add_node md5 n = s.add_node md5 n := by
  by_cases h : n ∈ s.nodes
  · rw [add_node_of_mem md5 h, add_node_of_mem md5 h]
  · apply add_node_of_mem
    rw [(add_node_ring_eq md5 s n h).2.2.1]
    exact Finset.mem_insert_self _ _

theorem remove_node_remove_node (md5 : List Nat → List Nat)
    (s : SimpleHashRing) (n : String) :
    (s.remove_node md5 n).remove_node md5 n = s.remove_node md5 n := by
  by_cases h : n ∈ s.nodes
  · apply remove_node_of_not_mem
    rw [(remove_node_ring_eq md5 s n h).2.2.1]
    exact Finset.not_mem_erase _ _
  · rw [remove_node_of_not_mem md5 h, remove_node_of_not_mem md5 h]

theorem add_node_remove_node (md5 : List Nat → List Nat)
    (s : SimpleHashRing) (n : String) (hn : n ∉ s.nodes)
    (hsorted : s.sorted_keys = pySorted (s.ring.map Prod.fst))
    (hfresh : ∀ i < s.virtual_nodes,
      hashFn md5 (virtualKey n i) ∉ s.ring.map Prod.fst)
    (hnd : (vkHashes md5 s.virtual_nodes n).Nodup) :
    (s.add_node md5 n).remove_node md5 n = s := by
  have hfresh' : ∀ k ∈ vkHashes md5 s.virtual_nodes n, k ∉ s.ring.map Prod.fst := by
    intro k hk
    rcases List.mem_map.mp hk with ⟨i, hi, rfl⟩
    exact hfresh i (List.mem_range.mp hi)
  obtain ⟨hring1, hsk1, hnodes1, hv1⟩ := add_node_ring_eq md5 s n hn
  have hmem1 : n ∈ (s.add_node md5 n).nodes := by
    rw [hnodes1]
    exact Finset.mem_insert_self _ _
  obtain ⟨hring2, hsk2, hnodes2, hv2⟩ :=
    remove_node_ring_eq md5 (s.add_node md5 n) n hmem1
  have hr1 : (s.add_node md5 n).ring
      = s.ring ++ (vkHashes md5 s.virtual_nodes n).map (fun k => (k, n)) := by
    rw [hring1, ← List.foldl_map
      (fun i => hashFn md5 (virtualKey n i)) (fun r k => dictInsert k n r)]
    exact foldl_dictInsert_fresh n _ _ hfresh' hnd
  have hr2 : ((s.add_node md5 n).remove_node md5 n).ring = s.ring := by
    rw [hring2, hv1, ← List.foldl_map
      (fun i => hashFn md5 (virtualKey n i)) (fun r k => dictErase k r),
      foldl_dictErase, hr1, List.filter_append,
      show (List.range s.virtual_nodes).map (fun i => hashFn md5 (virtualKey n i))
        = vkHashes md5 s.virtual_nodes n from rfl]
    have hleft : s.ring.filter
        (fun kv => decide (kv.1 ∉ vkHashes md5 s.virtual_nodes n)) = s.ring := by
      rw [List.filter_eq_self]
      intro kv hkv
      simp only [decide_eq_true_eq]
      intro hkm
      exact hfresh' kv.1 hkm (List.mem_map.mpr ⟨kv, hkv, rfl⟩)
    have hright : ((vkHashes md5 s.virtual_nodes n).map (fun k => (k, n))).filter
        (fun kv => decide (kv.1 ∉ vkHashes md5 s.virtual_nodes n)) = [] := by
      rw [List.filter_eq_nil_iff]
      intro kv hkv
      rcases List.mem_map.mp hkv with ⟨k, hk, rfl⟩
      simpa using hk
    rw [hleft, hright, List.append_nil]
  refine ringExt ?_ hr2 ?_ ?_
  · rw [hv2, hv1]
  · rw [hsk2, hr2, ← hsorted]
  · rw [hnodes2, hnodes1]
    exact Finset.erase_insert hn

/-! ### Gateway well-formedness invariant -/

/-- Invariant of every reachable gateway state: the ring is well formed
and its live-node set coincides with the key set of the descriptor
table. -/
structure GInv (md5 : List Nat → List Nat) (N : List String)
    (st : GatewayState) : Prop where
  ring : RingInv md5 150 N st.hash_ring
  keysNodup : (st.nodes.map Prod.fst).Nodup
  sameKeys : ∀ n, (dictGet n st.nodes).isSome ↔ n ∈ st.hash_ring.nodes

theorem gInv_init (md5 : List Nat → List Nat) (N : List String)
    (gid : String) : GInv md5 N (initGateway gid) := by
  refine ⟨ringInv_mkRing md5 N (by omega) (by omega), ?_, ?_⟩
  · simp [initGateway]
  · intro n
    simp [initGateway, dictGet, mkRing]

theorem isSome_dictModify {κ ν : Type} [DecidableEq κ] (k n : κ) (f : ν → ν)
    (l : List (κ × ν)) :
    (dictGet n (dictModify k f l)).isSome ↔ (dictGet n l).isSome := by
  rw [dictGet_isSome_iff, dictGet_isSome_iff, keys_dictModify]

theorem receive_heartbeat_bad (md5 : List Nat → List Nat)
    (st : GatewayState) (body : HeartbeatBody) (now : ℚ)
    (h : (falsyStr body.node_id || falsyStr body.address) = true) :
    receive_heartbeat md5 st body now = (st, .badRequest) := by
  simp only [receive_heartbeat]
  rw [if_pos h]

/-- The descriptor update performed on a heartbeat or gossip
observation: touch `last_heartbeat`, set `status` to `"active"`. -/
def touchAt (t : ℚ) (info : NodeInfo) : NodeInfo :=
  { info with last_heartbeat := t, status := "active" }

/-- The fresh descriptor built by `receive_heartbeat` for an unknown
node. -/
def hbInfo (body : HeartbeatBody) (now : ℚ) : NodeInfo :=
  { node_id := body.node_id.getD "", address := body.address.getD "",
    port := body.port.getD 8080, last_heartbeat := now, status := "active" }

theorem receive_heartbeat_known (md5 : List Nat → List Nat)
    (st : GatewayState) (body : HeartbeatBody) (now : ℚ)
    (h : ¬ (falsyStr body.node_id || falsyStr body.address) = true)
    (hk : (dictGet (body.node_id.getD "") st.nodes).isSome) :
    receive_heartbeat md5 st body now
      = ({ st with nodes := dictModify (body.node_id.getD "") (touchAt now) st.nodes },
          .received) := by
  simp only [receive_heartbeat]
  rw [if_neg h, if_pos hk]
  rfl

theorem receive_heartbeat_new (md5 : List Nat → List Nat)
    (st : GatewayState) (body : HeartbeatBody) (now : ℚ)
    (h : ¬ (falsyStr body.node_id || falsyStr body.address) = true)
    (hk : ¬ (dictGet (body.node_id.getD "") st.nodes).isSome) :
    receive_heartbeat md5 st body now
      = (addNodeToRing md5 st (hbInfo body now), .received) := by
  simp only [receive_heartbeat]
  rw [if_neg h, if_neg hk]
  rfl

theorem addNodeToRing_eq_new (md5 : List Nat → List Nat)
    (st : GatewayState) (nd : NodeInfo)
    (h : ¬ (dictGet nd.node_id st.nodes).isSome) :
    addNodeToRing md5 st nd
      = { st with
            nodes := dictInsert nd.node_id nd st.nodes,
            hash_ring := st.hash_ring.add_node md5 nd.node_id } := by
  simp only [addNodeToRing]
  rw [if_neg h]

theorem process_gossip_seen (st : GatewayState) (msg : GossipMessage)
    (h : msg.message_id ∈ st.gossip_messages) :
    process_gossip_message st msg = (st, false) := by
  simp only [process_gossip_message]
  rw [if_pos h]

theorem process_gossip_unseen_hb_known (st : GatewayState)
    (msg : GossipMessage) (h1 : msg.message_id ∉ st.gossip_messages)
    (h2 : msg.message_type = "HEARTBEAT")
    (h3 : (dictGet msg.data.node_id st.nodes).isSome) :
    process_gossip_message st msg
      = ({ st with
            gossip_messages := insert msg.message_id st.gossip_messages,
            nodes := dictModify msg.data.node_id (touchAt msg.data.timestamp) st.nodes },
          decide (msg.sender_id ≠ st.gateway_id)) := by
  simp only [process_gossip_message]
  rw [if_neg h1, if_pos h2, if_pos h3]
  rfl

theorem process_gossip_unseen_hb_unknown (st : GatewayState)
    (msg : GossipMessage) (h1 : msg.message_id ∉ st.gossip_messages)
    (h2 : msg.message_type = "HEARTBEAT")
    (h3 : ¬ (dictGet msg.data.node_id st.nodes).isSome) :
    process_gossip_message st msg
      = ({ st with gossip_messages := insert msg.message_id st.gossip_messages },
          decide (msg.sender_id ≠ st.gateway_id)) := by
  simp only [process_gossip_message]
  rw [if_neg h1, if_pos h2, if_neg h3]

theorem process_gossip_unseen_other (st : GatewayState)
    (msg : GossipMessage) (h1 : msg.message_id ∉ st.gossip_messages)
    (h2 : ¬ msg.message_type = "HEARTBEAT") :
    process_gossip_message st msg
      = ({ st with gossip_messages := insert msg.message_id st.gossip_messages },
          decide (msg.sender_id ≠ st.gateway_id)) := by
  simp only [process_gossip_message]
  rw [if_neg h1, if_neg h2]

theorem gInv_gossip {md5 : List Nat → List Nat} {N : List String}
    {st : GatewayState} (hInv : GInv md5 N st) (msg : GossipMessage) :
    GInv md5 N (process_gossip_message st msg).1 := by
  by_cases h1 : msg.message_id ∈ st.gossip_messages
  · rw [process_gossip_seen st msg h1]
    exact hInv
  · by_cases h2 : msg.message_type = "HEARTBEAT"
    · by_cases h3 : (dictGet msg.data.node_id st.nodes).isSome
      · rw [process_gossip_unseen_hb_known st msg h1 h2 h3]
        refine ⟨hInv.ring, ?_, ?_⟩
        · show ((dictModify msg.data.node_id (touchAt msg.data.timestamp) st.nodes).map Prod.fst).Nodup
          rw [keys_dictModify]
          exact hInv.keysNodup
        · intro n
          show (dictGet n (dictModify msg.data.node_id (touchAt msg.data.timestamp) st.nodes)).isSome
            ↔ n ∈ st.hash_ring.nodes
          rw [isSome_dictModify]
          exact hInv.sameKeys n
      · rw [process_gossip_unseen_hb_unknown st msg h1 h2 h3]
        exact ⟨hInv.ring, hInv.keysNodup, hInv.sameKeys⟩
    · rw [process_gossip_unseen_other st msg h1 h2]
      exact ⟨hInv.ring, hInv.keysNodup, hInv.sameKeys⟩

theorem gInv_heartbeat {md5 : List Nat → List Nat} {N : List String}
    {st : GatewayState} (hD : HashesDistinct md5 150 N)
    (hInv : GInv md5 N st) (body : HeartbeatBody) (now : ℚ)
    (hnid : body.node_id.getD "" ∈ N) :
    GInv md5 N (receive_heartbeat md5 st body now).1 := by
  by_cases hfals : (falsyStr body.node_id || falsyStr body.address) = true
  · rw [receive_heartbeat_bad md5 st body now hfals]
    exact hInv
  · by_cases hk : (dictGet (body.node_id.getD "") st.nodes).isSome
    · rw [receive_heartbeat_known md5 st body now hfals hk]
      refine ⟨hInv.ring, ?_, ?_⟩
      · show ((dictModify (body.node_id.getD "") (touchAt now) st.nodes).map Prod.fst).Nodup
        rw [keys_dictModify]
        exact hInv.keysNodup
      · intro n
        show (dictGet n (dictModify (body.node_id.getD "") (touchAt now) st.nodes)).isSome
          ↔ n ∈ st.hash_ring.nodes
        rw [isSome_dictModify]
        exact hInv.sameKeys n
    · have hk' : ¬ (dictGet (hbInfo body now).node_id st.nodes).isSome := hk
      rw [receive_heartbeat_new md5 st body now hfals hk,
        addNodeToRing_eq_new md5 st _ hk']
      have hfreshkey : (hbInfo body now).node_id ∉ st.nodes.map Prod.fst := by
        intro hmem
        exact hk' (dictGet_isSome_iff.mpr hmem)
      have hnotring : (hbInfo body now).node_id ∉ st.hash_ring.nodes := by
        intro hmem
        exact hk' ((hInv.sameKeys _).mpr hmem)
      obtain ⟨_, _, hnodes, _⟩ :=
        add_node_ring_eq md5 st.hash_ring (hbInfo body now).node_id hnotring
      refine ⟨ringInv_add hD hInv.ring hnid, ?_, ?_⟩
      · show ((dictInsert (hbInfo body now).node_id (hbInfo body now) st.nodes).map Prod.fst).Nodup
        rw [dictInsert_fresh _ hfreshkey, List.map_append]
        refine List.Nodup.append hInv.keysNodup (by simp) ?_
        intro x hx1 hx2
        simp only [List.map_cons, List.map_nil, List.mem_singleton] at hx2
        exact hfreshkey (hx2 ▸ hx1)
      · intro n
        show (dictGet n (dictInsert (hbInfo body now).node_id (hbInfo body now) st.nodes)).isSome
          ↔ n ∈ (st.hash_ring.add_node md5 (hbInfo body now).node_id).nodes
        rw [hnodes, dictInsert_fresh _ hfreshkey, Finset.mem_insert]
        rw [dictGet_isSome_iff, List.map_append, List.mem_append]
        rw [← dictGet_isSome_iff, hInv.sameKeys n]
        simp only [List.map_cons, List.map_nil, List.mem_singleton]
        constructor
        · intro hcase
          rcases hcase with hcase | hcase
          · exact Or.inr hcase
          · exact Or.inl hcase
        · intro hcase
          rcases hcase with hcase | hcase
          · exact Or.inr hcase
          · exact Or.inl hcase


theorem gInv_removeNode {md5 : List Nat → List Nat} {N : List String}
    {st : GatewayState} (hD : HashesDistinct md5 150 N)
    (hInv : GInv md5 N st) (nid : String) :
    GInv md5 N (removeNodeFromRing md5 st nid) := by
  refine ⟨ringInv_remove hD hInv.ring, ?_, ?_⟩
  · exact hInv.keysNodup.sublist ((List.filter_sublist _).map Prod.fst)
  · intro n
    show (dictGet n (dictErase nid st.nodes)).isSome
      ↔ n ∈ (st.hash_ring.remove_node md5 nid).nodes
    rw [dictGet_dictErase]
    by_cases hmem : nid ∈ st.hash_ring.nodes
    · rw [(remove_node_ring_eq md5 st.hash_ring nid hmem).2.2.1, Finset.mem_erase]
      by_cases hn : n = nid
      · simp [hn]
      · simp only [hn, if_neg, not_false_eq_true, if_false]
        rw [hInv.sameKeys n]
        simp [hn]
    · rw [remove_node_of_not_mem md5 hmem]
      by_cases hn : n = nid
      · subst hn
        simp only [if_pos rfl]
        constructor
        · intro hfalse
          simp at hfalse
        · intro hmem2
          exact absurd hmem2 hmem
      · simp only [hn, if_neg, not_false_eq_true, if_false]
        exact hInv.sameKeys n

theorem gInv_foldl_remove {md5 : List Nat → List Nat} {N : List String}
    (hD : HashesDistinct md5 150 N) :
    ∀ (ds : List String) (st : GatewayState), GInv md5 N st →
      GInv md5 N (ds.foldl (fun s nid => removeNodeFromRing md5 s nid) st)
  | [], _, hInv => hInv
  | d :: ds, st, hInv => by
    simp only [List.foldl_cons]
    exact gInv_foldl_remove hD ds _ (gInv_removeNode hD hInv d)

theorem healthVisit_key (now : ℚ) (probeOk : String → Bool)
    (kv : String × NodeInfo) : (healthVisit now probeOk kv).1.1 = kv.1 := by
  simp only [healthVisit]
  split_ifs <;> rfl

theorem gInv_health {md5 : List Nat → List Nat} {N : List String}
    {st : GatewayState} (hD : HashesDistinct md5 150 N)
    (hInv : GInv md5 N st) (now : ℚ) (probeOk : String → Bool) :
    GInv md5 N (check_node_health md5 st now probeOk) := by
  simp only [check_node_health]
  apply gInv_foldl_remove hD
  have hkeys : ((st.nodes.map (healthVisit now probeOk)).map Prod.fst).map Prod.fst
      = st.nodes.map Prod.fst := by
    rw [List.map_map, List.map_map]
    apply List.map_congr_left
    intro kv _
    exact healthVisit_key now probeOk kv
  refine ⟨hInv.ring, ?_, ?_⟩
  · show (((st.nodes.map (healthVisit now probeOk)).map Prod.fst).map Prod.fst).Nodup
    rw [hkeys]
    exact hInv.keysNodup
  · intro n
    show (dictGet n ((st.nodes.map (healthVisit now probeOk)).map Prod.fst)).isSome
      ↔ n ∈ st.hash_ring.nodes
    rw [dictGet_isSome_iff, hkeys, ← dictGet_isSome_iff]
    exact hInv.sameKeys n

theorem gInv_clear {md5 : List Nat → List Nat} {N : List String}
    {st : GatewayState} : GInv md5 N (clear_nodes st).1 := by
  refine ⟨ringInv_mkRing md5 N (by omega) (by omega), ?_, ?_⟩
  · simp [clear_nodes]
  · intro n
    simp [clear_nodes, dictGet, mkRing]

theorem gInv_gStep {md5 : List Nat → List Nat} {N : List String}
    {st : GatewayState} {op : GOp} (hD : HashesDistinct md5 150 N)
    (hInv : GInv md5 N st) (hop : ∀ x ∈ op.hbNodes, x ∈ N) :
    GInv md5 N (gStep md5 st op) := by
  cases op with
  | heartbeat body now =>
    exact gInv_heartbeat hD hInv body now
      (hop _ (by simp [GOp.hbNodes]))
  | gossip msg => exact gInv_gossip hInv msg
  | health now probeOk => exact gInv_health hD hInv now probeOk
  | clear => exact gInv_clear

theorem gInv_foldl {md5 : List Nat → List Nat} {N : List String} :
    ∀ (ops : List GOp) (st : GatewayState), HashesDistinct md5 150 N →
      GInv md5 N st → (∀ x ∈ gTraceNodes ops, x ∈ N) →
      GInv md5 N (ops.foldl (gStep md5) st)
  | [], st, _, hInv, _ => hInv
  | op :: ops, st, hD, hInv, hT => by
    simp only [List.foldl_cons]
    refine gInv_foldl ops _ hD ?_ ?_
    · refine gInv_gStep hD hInv ?_
      intro x hx
      refine hT x ?_
      simp only [gTraceNodes, List.flatMap_cons, List.mem_append]
      exact Or.inl hx
    · intro x hx
      refine hT x ?_
      simp only [gTraceNodes, List.flatMap_cons, List.mem_append]
      right
      simpa [gTraceNodes] using hx

theorem gInv_runGateway {md5 : List Nat → List Nat} {N : List String}
    (gid : String) {ops : List GOp} (hD : HashesDistinct md5 150 N)
    (hT : ∀ x ∈ gTraceNodes ops, x ∈ N) :
    GInv md5 N (runGateway md5 gid ops) :=
  gInv_foldl ops (initGateway gid) hD (gInv_init md5 N gid) hT

/-! ### Behaviour of `GET /nodes/<key>` on well-formed gateways -/

theorem get_node_for_key_spec {md5 : List Nat → List Nat} {N : List String}
    {st : GatewayState} (hInv : GInv md5 N st) (key : String) :
    ((get_node_for_key md5 st key).code = 404 ↔ st.hash_ring.nodes = ∅) ∧
    get_node_for_key md5 st key ≠ .nodeMissing := by
  by_cases hne : st.hash_ring.nodes = ∅
  · rw [get_node_for_key, if_pos hne]
    refine ⟨⟨fun _ => hne, fun _ => rfl⟩, ?_⟩
    intro hcon
    exact KeyLookupResult.noConfusion hcon
  · rw [get_node_for_key, if_neg hne]
    rcases optionEqCases (st.hash_ring.get_node md5 key) with hnone | ⟨v, hsome⟩
    · exact absurd ((get_node_eq_none_iff hInv.ring key).mp hnone) hne
    · rw [hsome]
      obtain ⟨p, hpv, _⟩ := get_node_owner hInv.ring hsome
      have hvnode : v ∈ st.hash_ring.nodes := hInv.ring.entryNode (p, v) hpv
      have hsome2 : (dictGet v st.nodes).isSome := (hInv.sameKeys v).mpr hvnode
      rcases optionEqCases (dictGet v st.nodes) with hno | ⟨info, hinfo⟩
      · rw [hno] at hsome2
        simp at hsome2
      · show ((lookupResult key (dictGet v st.nodes)).code = 404 ↔
            st.hash_ring.nodes = ∅) ∧
          lookupResult key (dictGet v st.nodes) ≠ KeyLookupResult.nodeMissing
        rw [hinfo]
        refine ⟨⟨?_, ?_⟩, ?_⟩
        · intro hcode
          simp [lookupResult, KeyLookupResult.code] at hcode
        · intro hemp
          exact absurd hemp hne
        · intro hcon
          rw [lookupResult] at hcon
          exact KeyLookupResult.noConfusion hcon

/-! ### A concrete stand-in digest used by the witnesses -/

/-- A cheap executable stand-in for the external MD5 digest, used only to
instantiate the witnesses: pad/truncate the input to 16 bytes. -/
def md5Stub : List Nat → List Nat :=
  fun bs => (bs ++ List.replicate 16 0).take 16

/-! ### The claims -/

/-- C1: `get_node` returns `None` iff the (reachable, collision-free)
ring has no nodes; otherwise it returns the node id stored at the least
ring position at or after the key's hash, wrapping to the least position
overall when no position is at or after it; and at the gateway,
`GET /nodes/<key>` answers 404 exactly when the ring is empty. -/
theorem claim1_owner_lookup (md5 : List Nat → List Nat) (V : Nat)
    (ops : List ROp) (N : List String) (key : String)
    (gid : String) (gops : List GOp) (N2 : List String)
    (hV : 1 ≤ V) (hD : HashesDistinct md5 V N)
    (hT : ∀ x ∈ ringTraceNodes ops, x ∈ N)
    (hD2 : HashesDistinct md5 150 N2)
    (hT2 : ∀ x ∈ gTraceNodes gops, x ∈ N2) :
    ((runRing md5 V ops).get_node md5 key = none ↔ (runRing md5 V ops).nodes = ∅) ∧
    (∀ v, (runRing md5 V ops).get_node md5 key = some v →
      ∃ p, (p, v) ∈ (runRing md5 V ops).ring ∧
        OwnerPos ((runRing md5 V ops).ring.map Prod.fst) (hashFn md5 key) p) ∧
    ((get_node_for_key md5 (runGateway md5 gid gops) key).code = 404 ↔
      (runGateway md5 gid gops).hash_ring.nodes = ∅) := by
  have hInv := ringInv_runRing hV (le_refl V) hD hT
  have hGInv := gInv_runGateway gid hD2 hT2
  exact ⟨get_node_eq_none_iff hInv key,
    fun v hv => get_node_owner hInv hv,
    (get_node_for_key_spec hGInv key).1⟩

theorem claim1_witness :
    ((1 : Nat) ≤ 1 ∧ HashesDistinct md5Stub 1 ["a"] ∧
      (∀ x ∈ ringTraceNodes [ROp.add "a"], x ∈ ["a"]) ∧
      HashesDistinct md5Stub 150 ([] : List String) ∧
      (∀ x ∈ gTraceNodes ([] : List GOp), x ∈ ([] : List String))) ∧
    ((runRing md5Stub 1 [ROp.add "a"]).get_node md5Stub "k" = none ↔
      (runRing md5Stub 1 [ROp.add "a"]).nodes = ∅) :=
  ⟨⟨by decide, by decide, by decide, by decide, by decide⟩,
    (claim1_owner_lookup md5Stub 1 [ROp.add "a"] ["a"] "k" "g" [] []
      (by decide) (by decide) (by decide) (by decide) (by decide)).1⟩

/-- C2: the ring position of a key is the (byte-wise big-endian)
integer value of the 16-byte digest of the key's UTF-8 encoding — the
code's `int(hexdigest, 16)` agrees with that reading and fits in 128
bits — and each virtual node `(N, i)` is placed at the same hash applied
to the string `N ++ ":" ++ decimal(i)`, so keys and virtual nodes share
one position space. -/
theorem claim2_position_space (md5 : List Nat → List Nat) (key : String)
    (hbytes : ∀ b ∈ md5 (strBytes key), b < 256) :
    hashFn md5 key = beNat (md5 (strBytes key)) ∧
    ((md5 (strBytes key)).length = 16 → hashFn md5 key < 2 ^ 128) ∧
    (∀ (s : SimpleHashRing) (n : String) (i : Nat),
      i < s.virtual_nodes → n ∉ s.nodes →
      hashFn md5 (n ++ ":" ++ toString i)
        ∈ (s.add_node md5 n).ring.map Prod.fst) := by
  refine ⟨intOfHex_bytesToHexStr _ hbytes, ?_, ?_⟩
  · intro hlen
    show intOfHex (bytesToHexStr (md5 (strBytes key))) < 2 ^ 128
    rw [intOfHex_bytesToHexStr _ hbytes]
    have hlt := beNat_lt _ hbytes
    rw [hlen] at hlt
    calc beNat (md5 (strBytes key)) < 256 ^ 16 := hlt
      _ = 2 ^ 128 := by norm_num
  · intro s n i hi hn
    obtain ⟨hring, _, _, _⟩ := add_node_ring_eq md5 s n hn
    rw [hring, ← List.foldl_map
      (fun j => hashFn md5 (virtualKey n j)) (fun r k => dictInsert k n r)]
    apply mem_keys_foldl_dictInsert
    exact Or.inl (List.mem_map.mpr ⟨i, List.mem_range.mpr hi, rfl⟩)

theorem claim2_witness :
    (∀ b ∈ md5Stub (strBytes "user:1001"), b < 256) ∧
    hashFn md5Stub "user:1001" = beNat (md5Stub (strBytes "user:1001")) :=
  ⟨by decide, (claim2_position_space md5Stub "user:1001" (by decide)).1⟩

/-- C3: in every ring state reachable from the empty ring by `add_node`
and `remove_node` (with collision-free virtual-key hashes), every live
node resolves from exactly `V` positions, no position maps to a node
outside the live set, and the position count equals `V` times the number
of live nodes. -/
theorem claim3_ring_size_invariant (md5 : List Nat → List Nat) (V : Nat)
    (ops : List ROp) (N : List String) (hV : 1 ≤ V)
    (hD : HashesDistinct md5 V N)
    (hT : ∀ x ∈ ringTraceNodes ops, x ∈ N) :
    (∀ n ∈ (runRing md5 V ops).nodes,
      ((runRing md5 V ops).ring.filter (fun pv => decide (pv.2 = n))).length = V) ∧
    (∀ pv ∈ (runRing md5 V ops).ring, pv.2 ∈ (runRing md5 V ops).nodes) ∧
    (runRing md5 V ops).ring.length = V * (runRing md5 V ops).nodes.card := by
  have hInv := ringInv_runRing hV (le_refl V) hD hT
  have hv := virtual_nodes_runRing md5 V ops
  refine ⟨?_, hInv.entryNode, ?_⟩
  · intro n hn
    have h1 := hInv.countV n hn
    rw [hv] at h1
    exact h1
  · have h1 := ringInv_length hInv
    rw [hv] at h1
    exact h1

theorem claim3_witness :
    ((1 : Nat) ≤ 2 ∧ HashesDistinct md5Stub 2 ["a", "b"] ∧
      (∀ x ∈ ringTraceNodes [ROp.add "a", ROp.add "b", ROp.remove "a"],
        x ∈ ["a", "b"])) ∧
    (runRing md5Stub 2 [ROp.add "a", ROp.add "b", ROp.remove "a"]).ring.length
      = 2 * (runRing md5Stub 2 [ROp.add "a", ROp.add "b", ROp.remove "a"]).nodes.card :=
  ⟨⟨by decide, by decide, by decide⟩,
    (claim3_ring_size_invariant md5Stub 2
      [ROp.add "a", ROp.add "b", ROp.remove "a"] ["a", "b"]
      (by decide) (by decide) (by decide)).2.2⟩

/-- C4: `add_node` and `remove_node` are idempotent, and on a
well-formed state not containing `n` whose fresh virtual positions do
not collide, `add_node n` followed by `remove_node n` restores the
initial state exactly. -/
theorem claim4_membership_algebra (md5 : List Nat → List Nat)
    (s : SimpleHashRing) (n : String) :
    ((s.add_node md5 n).add_node md5 n = s.add_node md5 n) ∧
    ((s.remove_node md5 n).remove_node md5 n = s.remove_node md5 n) ∧
    (n ∉ s.nodes → s.sorted_keys = pySorted (s.ring.map Prod.fst) →
      (∀ i < s.virtual_nodes,
        hashFn md5 (virtualKey n i) ∉ s.ring.map Prod.fst) →
      (vkHashes md5 s.virtual_nodes n).Nodup →
      (s.add_node md5 n).remove_node md5 n = s) :=
  ⟨add_node_add_node md5 s n, remove_node_remove_node md5 s n,
    fun h1 h2 h3 h4 => add_node_remove_node md5 s n h1 h2 h3 h4⟩

theorem claim4_witness :
    ("a" ∉ (mkRing 2).nodes ∧
      (mkRing 2).sorted_keys = pySorted ((mkRing 2).ring.map Prod.fst) ∧
      (∀ i < (mkRing 2).virtual_nodes,
        hashFn md5Stub (virtualKey "a" i) ∉ (mkRing 2).ring.map Prod.fst) ∧
      (vkHashes md5Stub (mkRing 2).virtual_nodes "a").Nodup) ∧
    ((mkRing 2).add_node md5Stub "a").remove_node md5Stub "a" = mkRing 2 :=
  ⟨⟨by decide, by decide, by decide, by decide⟩,
    (claim4_membership_algebra md5Stub (mkRing 2) "a").2.2
      (by decide) (by decide) (by decide) (by decide)⟩

/-- C5 counterexample: an unseen `HEARTBEAT` gossip message for a node
with no local descriptor creates nothing — the descriptor table is still
empty afterwards, against the claim that a descriptor is created when
absent. -/
theorem claim5_counterexample :
    (⟨"m1", "HEARTBEAT", "g2", ⟨"n1", "h", 8080, 5⟩, 5⟩ : GossipMessage).message_id
        ∉ (initGateway "g1").gossip_messages ∧
    dictGet "n1" (initGateway "g1").nodes = none ∧
    dictGet "n1" (process_gossip_message (initGateway "g1")
      ⟨"m1", "HEARTBEAT", "g2", ⟨"n1", "h", 8080, 5⟩, 5⟩).1.nodes = none := by
  refine ⟨by decide, rfl, ?_⟩
  rw [process_gossip_unseen_hb_unknown _ _ (by decide) rfl (by decide)]
  rfl

/-- C5 amended: on an unseen `HEARTBEAT` gossip message, when a local
descriptor exists the gateway unconditionally overwrites its
`last_heartbeat` with the observation's timestamp (even when older) and
sets `status` to `"active"`; when no descriptor exists nothing is
created; and in no case is the hash ring touched via this path. -/
theorem claim5_gossip_apply (st : GatewayState) (msg : GossipMessage)
    (h1 : msg.message_id ∉ st.gossip_messages)
    (h2 : msg.message_type = "HEARTBEAT") :
    (process_gossip_message st msg).1.hash_ring = st.hash_ring ∧
    (¬ (dictGet msg.data.node_id st.nodes).isSome →
      (process_gossip_message st msg).1.nodes = st.nodes) ∧
    (∀ info, dictGet msg.data.node_id st.nodes = some info →
      dictGet msg.data.node_id (process_gossip_message st msg).1.nodes
        = some { info with last_heartbeat := msg.data.timestamp, status := "active" } ∧
      ∀ m, m ≠ msg.data.node_id →
        dictGet m (process_gossip_message st msg).1.nodes = dictGet m st.nodes) := by
  by_cases h3 : (dictGet msg.data.node_id st.nodes).isSome
  · rw [process_gossip_unseen_hb_known st msg h1 h2 h3]
    refine ⟨rfl, fun hc => absurd h3 hc, ?_⟩
    intro info hinfo
    constructor
    · show dictGet msg.data.node_id
        (dictModify msg.data.node_id (touchAt msg.data.timestamp) st.nodes) = _
      rw [dictGet_dictModify_self, hinfo]
      rfl
    · intro m hm
      show dictGet m
        (dictModify msg.data.node_id (touchAt msg.data.timestamp) st.nodes) = _
      rw [dictGet_dictModify_other _ _ hm]
  · rw [process_gossip_unseen_hb_unknown st msg h1 h2 h3]
    refine ⟨rfl, fun _ => rfl, ?_⟩
    intro info hinfo
    rw [hinfo] at h3
    simp at h3

theorem claim5_witness :
    ((⟨"m1", "HEARTBEAT", "g2", ⟨"n1", "h", 8080, 5⟩, 5⟩ : GossipMessage).message_id
        ∉ ({ gateway_id := "g1", hash_ring := mkRing 150,
             nodes := [("n1", ⟨"n1", "h", 8080, 10, "active"⟩)],
             gossip_messages := ∅ } : GatewayState).gossip_messages ∧
      (⟨"m1", "HEARTBEAT", "g2", ⟨"n1", "h", 8080, 5⟩, 5⟩ : GossipMessage).message_type
        = "HEARTBEAT") ∧
    dictGet "n1" (process_gossip_message
      ({ gateway_id := "g1", hash_ring := mkRing 150,
         nodes := [("n1", ⟨"n1", "h", 8080, 10, "active"⟩)],
         gossip_messages := ∅ } : GatewayState)
      ⟨"m1", "HEARTBEAT", "g2", ⟨"n1", "h", 8080, 5⟩, 5⟩).1.nodes
      = some ⟨"n1", "h", 8080, 5, "active"⟩ :=
  ⟨⟨by decide, rfl⟩, by
    have h := (claim5_gossip_apply
      ({ gateway_id := "g1", hash_ring := mkRing 150,
         nodes := [("n1", ⟨"n1", "h", 8080, 10, "active"⟩)],
         gossip_messages := ∅ } : GatewayState)
      ⟨"m1", "HEARTBEAT", "g2", ⟨"n1", "h", 8080, 5⟩, 5⟩
      (by decide) rfl).2.2 ⟨"n1", "h", 8080, 10, "active"⟩ rfl
    exact h.1⟩

/-- C6: a gossip message whose `message_id` was already seen leaves the
whole gateway state unchanged and is not re-broadcast; hence processing
the same message twice equals processing it once; and a not-yet-seen
message is re-broadcast exactly when its `sender_id` differs from the
gateway's own id. -/
theorem claim6_gossip_exactly_once (st : GatewayState) (msg : GossipMessage) :
    (msg.message_id ∈ st.gossip_messages →
      process_gossip_message st msg = (st, false)) ∧
    (process_gossip_message (process_gossip_message st msg).1 msg
      = ((process_gossip_message st msg).1, false)) ∧
    (msg.message_id ∉ st.gossip_messages →
      ((process_gossip_message st msg).2 = true ↔
        msg.sender_id ≠ st.gateway_id)) := by
  have hmem : msg.message_id ∈ (process_gossip_message st msg).1.gossip_messages := by
    by_cases h1 : msg.message_id ∈ st.gossip_messages
    · rw [process_gossip_seen st msg h1]
      exact h1
    · by_cases h2 : msg.message_type = "HEARTBEAT"
      · by_cases h3 : (dictGet msg.data.node_id st.nodes).isSome
        · rw [process_gossip_unseen_hb_known st msg h1 h2 h3]
          exact Finset.mem_insert_self _ _
        · rw [process_gossip_unseen_hb_unknown st msg h1 h2 h3]
          exact Finset.mem_insert_self _ _
      · rw [process_gossip_unseen_other st msg h1 h2]
        exact Finset.mem_insert_self _ _
  refine ⟨fun h => process_gossip_seen st msg h,
    process_gossip_seen _ msg hmem, ?_⟩
  intro h1
  have hsnd : (process_gossip_message st msg).2
      = decide (msg.sender_id ≠ st.gateway_id) := by
    by_cases h2 : msg.message_type = "HEARTBEAT"
    · by_cases h3 : (dictGet msg.data.node_id st.nodes).isSome
      · rw [process_gossip_unseen_hb_known st msg h1 h2 h3]
      · rw [process_gossip_unseen_hb_unknown st msg h1 h2 h3]
    · rw [process_gossip_unseen_other st msg h1 h2]
  rw [hsnd]
  simp

theorem claim6_witness :
    ((⟨"m1", "HEARTBEAT", "g2", ⟨"n1", "h", 8080, 5⟩, 5⟩ : GossipMessage).message_id
        ∈ ({ gateway_id := "g1", hash_ring := mkRing 150, nodes := [],
             gossip_messages := {"m1"} } : GatewayState).gossip_messages) ∧
    process_gossip_message
      ({ gateway_id := "g1", hash_ring := mkRing 150, nodes := [],
         gossip_messages := {"m1"} } : GatewayState)
      ⟨"m1", "HEARTBEAT", "g2", ⟨"n1", "h", 8080, 5⟩, 5⟩
      = (({ gateway_id := "g1", hash_ring := mkRing 150, nodes := [],
            gossip_messages := {"m1"} } : GatewayState), false) :=
  ⟨by decide,
    (claim6_gossip_exactly_once
      ({ gateway_id := "g1", hash_ring := mkRing 150, nodes := [],
         gossip_messages := {"m1"} } : GatewayState)
      ⟨"m1", "HEARTBEAT", "g2", ⟨"n1", "h", 8080, 5⟩, 5⟩).1 (by decide)⟩

/-- C7 counterexample: a heartbeat body with `node_id` and `address`
present but `port` missing is accepted with 200, not rejected with 400
as the claim demands for any missing field. -/
theorem claim7_counterexample :
    (⟨some "n1", some "h", none⟩ : HeartbeatBody).port = none ∧
    (receive_heartbeat md5Stub (initGateway "g1")
      ⟨some "n1", some "h", none⟩ 0).2 = HbResult.received ∧
    HbResult.received.code = 200 := by
  refine ⟨rfl, ?_, rfl⟩
  rw [receive_heartbeat_new md5Stub (initGateway "g1")
    ⟨some "n1", some "h", none⟩ 0 (by decide) (by decide)]

/-- C7 amended: `POST /heartbeat` answers 400 exactly when `node_id` or
`address` is missing or empty (a missing `port` defaults to 8080); when
both are present it answers 200, touching `last_heartbeat`/`status` of a
known node, and for an unknown node creating the descriptor and adding
the node to the hash ring. -/
theorem claim7_heartbeat_upsert (md5 : List Nat → List Nat)
    (st : GatewayState) (body : HeartbeatBody) (now : ℚ) :
    ((receive_heartbeat md5 st body now).2 = HbResult.badRequest ↔
      (falsyStr body.node_id || falsyStr body.address) = true) ∧
    ((falsyStr body.node_id || falsyStr body.address) = true →
      (receive_heartbeat md5 st body now).1 = st) ∧
    (¬ (falsyStr body.node_id || falsyStr body.address) = true →
      (receive_heartbeat md5 st body now).2 = HbResult.received ∧
      ((dictGet (body.node_id.getD "") st.nodes).isSome →
        (receive_heartbeat md5 st body now).1
          = { st with nodes := dictModify (body.node_id.getD "") (touchAt now) st.nodes }) ∧
      (¬ (dictGet (body.node_id.getD "") st.nodes).isSome →
        (receive_heartbeat md5 st body now).1.nodes
          = dictInsert (body.node_id.getD "") (hbInfo body now) st.nodes ∧
        (receive_heartbeat md5 st body now).1.hash_ring
          = st.hash_ring.add_node md5 (body.node_id.getD ""))) := by
  by_cases hfals : (falsyStr body.node_id || falsyStr body.address) = true
  · rw [receive_heartbeat_bad md5 st body now hfals]
    refine ⟨⟨fun _ => hfals, fun _ => rfl⟩, fun _ => rfl, fun hc => absurd hfals hc⟩
  · refine ⟨?_, fun hc => absurd hc hfals, ?_⟩
    · constructor
      · intro hbad
        by_cases hk : (dictGet (body.node_id.getD "") st.nodes).isSome
        · rw [receive_heartbeat_known md5 st body now hfals hk] at hbad
          exact HbResult.noConfusion hbad
        · rw [receive_heartbeat_new md5 st body now hfals hk] at hbad
          exact HbResult.noConfusion hbad
      · intro hf
        exact absurd hf hfals
    · intro _
      by_cases hk : (dictGet (body.node_id.getD "") st.nodes).isSome
      · rw [receive_heartbeat_known md5 st body now hfals hk]
        exact ⟨rfl, fun _ => rfl, fun hc => absurd hk hc⟩
      · rw [receive_heartbeat_new md5 st body now hfals hk,
          addNodeToRing_eq_new md5 st _ hk]
        exact ⟨rfl, fun hc => absurd hc hk, fun _ => ⟨rfl, rfl⟩⟩

theorem claim7_witness :
    (¬ (falsyStr (some "n1") || falsyStr (some "h")) = true) ∧
    (receive_heartbeat md5Stub (initGateway "g1")
      ⟨some "n1", some "h", none⟩ 0).2 = HbResult.received :=
  ⟨by decide,
    ((claim7_heartbeat_upsert md5Stub (initGateway "g1")
      ⟨some "n1", some "h", none⟩ 0).2.2 (by decide)).1⟩

/-- C8: `POST /admin/clear_nodes` empties the descriptor table and
reports the cleared count, but the replacement ring is built with
`virtual_nodes = 100`, not the default 150 the claim (and the code's own
comment) prescribe. -/
theorem claim8_clear_nodes_ring (st : GatewayState) :
    (clear_nodes st).1.nodes = [] ∧
    (clear_nodes st).1.hash_ring = mkRing 100 ∧
    (clear_nodes st).1.hash_ring.virtual_nodes = 100 ∧
    ¬ (clear_nodes st).1.hash_ring.virtual_nodes = 150 ∧
    (clear_nodes st).2 = st.nodes.length ∧
    (clear_nodes st).1.gateway_id = st.gateway_id := by
  refine ⟨rfl, rfl, rfl, ?_, rfl, rfl⟩
  intro h
  rw [show (clear_nodes st).1.hash_ring.virtual_nodes = 100 from rfl] at h
  omega

/-- C9: on a non-empty (reachable, collision-free) ring and for
`count ≥ 1`, `get_nodes` returns pairwise-distinct node ids, at most
`count` of them, whose first element is `get_node`'s owner, and the list
is shorter than `count` only because it already holds every live
node. -/
theorem claim9_get_nodes_replicas (md5 : List Nat → List Nat) (V : Nat)
    (ops : List ROp) (N : List String) (key : String) (count : Int)
    (hV : 1 ≤ V) (hD : HashesDistinct md5 V N)
    (hT : ∀ x ∈ ringTraceNodes ops, x ∈ N) (hc : 1 ≤ count)
    (hne : (runRing md5 V ops).nodes ≠ ∅) :
    ((runRing md5 V ops).get_nodes md5 key count).head?
      = (runRing md5 V ops).get_node md5 key ∧
    ((runRing md5 V ops).get_nodes md5 key count).Nodup ∧
    (((runRing md5 V ops).get_nodes md5 key count).length : Int) ≤ count ∧
    ((((runRing md5 V ops).get_nodes md5 key count).length : Int) < count →
      ((runRing md5 V ops).get_nodes md5 key count).length
        = (runRing md5 V ops).nodes.card) := by
  have hInv := ringInv_runRing hV (le_refl V) hD hT
  exact get_nodes_spec hInv key hc hne

theorem claim9_witness :
    ((1 : Nat) ≤ 1 ∧ HashesDistinct md5Stub 1 ["a", "b"] ∧
      (∀ x ∈ ringTraceNodes [ROp.add "a", ROp.add "b"], x ∈ ["a", "b"]) ∧
      (1 : Int) ≤ 3 ∧ (runRing md5Stub 1 [ROp.add "a", ROp.add "b"]).nodes ≠ ∅) ∧
    ((runRing md5Stub 1 [ROp.add "a", ROp.add "b"]).get_nodes md5Stub "k" 3).head?
      = (runRing md5Stub 1 [ROp.add "a", ROp.add "b"]).get_node md5Stub "k" :=
  ⟨⟨by decide, by decide, by decide, by decide, by decide⟩,
    (claim9_get_nodes_replicas md5Stub 1 [ROp.add "a", ROp.add "b"]
      ["a", "b"] "k" 3 (by decide) (by decide) (by decide) (by decide)
      (by decide)).1⟩

/-- C10: in every reachable gateway state the ring's live-node set is
exactly the key set of the descriptor table, and `GET /nodes/<key>`
never lands in its `"Node not found"` branch. -/
theorem claim10_ring_matches_table (md5 : List Nat → List Nat)
    (gid : String) (ops : List GOp) (N : List String) (key : String)
    (hD : HashesDistinct md5 150 N)
    (hT : ∀ x ∈ gTraceNodes ops, x ∈ N) :
    (runGateway md5 gid ops).hash_ring.nodes
      = ((runGateway md5 gid ops).nodes.map Prod.fst).toFinset ∧
    get_node_for_key md5 (runGateway md5 gid ops) key
      ≠ KeyLookupResult.nodeMissing := by
  have hGInv := gInv_runGateway gid hD hT
  constructor
  · apply Finset.ext
    intro n
    rw [List.mem_toFinset]
    constructor
    · intro hmem
      exact dictGet_isSome_iff.mp ((hGInv.sameKeys n).mpr hmem)
    · intro hmem
      exact (hGInv.sameKeys n).mp (dictGet_isSome_iff.mpr hmem)
  · exact (get_node_for_key_spec hGInv key).2

theorem claim10_witness :
    (HashesDistinct md5Stub 150 ["a"] ∧
      (∀ x ∈ gTraceNodes [GOp.heartbeat ⟨some "a", some "h", some 9⟩ 0], x ∈ ["a"])) ∧
    (runGateway md5Stub "g1" [GOp.heartbeat ⟨some "a", some "h", some 9⟩ 0]).hash_ring.nodes
      = ((runGateway md5Stub "g1"
          [GOp.heartbeat ⟨some "a", some "h", some 9⟩ 0]).nodes.map Prod.fst).toFinset :=
  ⟨⟨by decide, by decide⟩,
    (claim10_ring_matches_table md5Stub "g1"
      [GOp.heartbeat ⟨some "a", some "h", some 9⟩ 0] ["a"] "k"
      (by decide) (by decide)).1⟩

end SDBook
